import Mathlib

/-!
Verification development for the polyagent hybrid-RAG core
(`src/python-ai/app/rag/{core,hybrid_retriever,rerankers,graph_retriever}.py`).

The Python code is shallowly embedded: Python `float` arithmetic is modelled by
exact rationals `ℚ` (and by `ℝ` where `math.log` appears), Python `dict`s by
insertion-ordered association lists, Python `set`s by `Finset`, and fallible
calls (`raise`) by `Except`.  External collaborators (vector store, embedding
model, cross-encoder, NLP entity extractor) are parameters of the embedded
functions, exactly at the interfaces the source calls them.
-/

namespace Polyagent

/-! ## Python `dict` as an insertion-ordered association list

Python dicts preserve insertion order; assigning to an existing key updates
the value in place (keeping the key's original position), assigning a fresh
key appends.  `alistLookup` is `d[k]` / `d.get(k)`, `alistInsert` is
`d[k] = v`, `dictOf` is a dict built by successive assignments. -/

section Dict

variable {α : Type} {β : Type} [DecidableEq α]

def alistLookup (m : List (α × β)) (k : α) : Option β :=
  match m.find? (fun p => p.1 = k) with
  | some p => some p.2
  | none => none

def alistInsert (m : List (α × β)) (k : α) (v : β) : List (α × β) :=
  match m with
  | [] => [(k, v)]
  | p :: rest => if p.1 = k then (k, v) :: rest else p :: alistInsert rest k v

def dictOf (ps : List (α × β)) : List (α × β) :=
  ps.foldl (fun m p => alistInsert m p.1 p.2) []

end Dict

/-! ## Stable sorting by descending score

Python's `list.sort(key=..., reverse=True)` / `sorted(..., reverse=True)` is a
stable descending sort; we embed it as insertion sort that inserts a new
element before the first strictly-smaller element. -/

section SortDesc

variable {γ : Type}

def insertDesc (score : γ → ℚ) (x : γ) : List γ → List γ
  | [] => [x]
  | y :: ys => if score y < score x then x :: y :: ys else y :: insertDesc score x ys

def sortByScoreDesc (score : γ → ℚ) (l : List γ) : List γ :=
  l.foldr (insertDesc score) []

end SortDesc

/-! ## `app/rag/hybrid_retriever.py` — `HybridRetriever` fusion layer

The module manipulates chunks only through `chunk.chunk_id`, so its chunk view
is embedded as `HChunk`.  The vector-store call (`similarity_search`) and the
BM25 scores entering `search` are external inputs of the fusion functions and
appear as the `semanticResults` / `bm25Results` parameters (lists of
`(chunk, score)` pairs, as in the source). -/

namespace HybridR

structure HChunk where
  chunkId : String
  content : String
  deriving DecidableEq, Repr

/-- `hybrid_retriever.RetrievalResult` (chunk plus score breakdown). -/
structure HResult where
  chunk : HChunk
  semanticScore : ℚ
  bm25Score : ℚ
  combinedScore : ℚ
  rankFusionScore : ℚ := 0
  deriving DecidableEq, Repr

/-- `HybridRetriever._normalize_scores`: min-max normalization; an empty list
stays empty, a constant list maps to all `1.0`. -/
def normalizeScores : List ℚ → List ℚ
  | [] => []
  | s :: rest =>
      let mn := rest.foldl min s
      let mx := rest.foldl max s
      if mx = mn then (s :: rest).map (fun _ => 1)
      else (s :: rest).map (fun x => (x - mn) / (mx - mn))

/-- `__init__` lines 123-126: the constructor weights are divided by their
total so the stored pair sums to 1. -/
def hybridInitWeights (semanticWeight bm25Weight : ℚ) : ℚ × ℚ :=
  let totalWeight := semanticWeight + bm25Weight
  (semanticWeight / totalWeight, bm25Weight / totalWeight)

/-- The `semantic_map` / `bm25_map` dict comprehensions of `_weighted_fusion`:
chunk id to normalized score. -/
def scoreMap (results : List (HChunk × ℚ)) : List (String × ℚ) :=
  dictOf (List.zip (results.map (fun p => p.1.chunkId))
    (normalizeScores (results.map (fun p => p.2))))

/-- The `all_chunks` dict of `_weighted_fusion` / `_max_fusion`: first
occurrence of each chunk id wins. -/
def allChunksOf (results : List (HChunk × ℚ)) : List (String × HChunk) :=
  results.foldl
    (fun m p =>
      if (alistLookup m p.1.chunkId).isSome then m else m ++ [(p.1.chunkId, p.1)])
    []

/-- The `combined_results` list of `HybridRetriever._weighted_fusion`
(lines 192-205), before the final sort and truncation. -/
def weightedCombined (semanticWeight bm25Weight : ℚ)
    (semanticResults bm25Results : List (HChunk × ℚ)) : List HResult :=
  let semanticMap := scoreMap semanticResults
  let bm25Map := scoreMap bm25Results
  let allChunks := allChunksOf (semanticResults ++ bm25Results)
  allChunks.map (fun q =>
    let semanticScore := (alistLookup semanticMap q.1).getD 0
    let bm25Score := (alistLookup bm25Map q.1).getD 0
    { chunk := q.2, semanticScore := semanticScore, bm25Score := bm25Score,
      combinedScore := semanticWeight * semanticScore + bm25Weight * bm25Score } )

/-- `HybridRetriever._weighted_fusion`. -/
def weightedFusion (semanticWeight bm25Weight : ℚ)
    (semanticResults bm25Results : List (HChunk × ℚ)) (topK : ℕ) : List HResult :=
  (sortByScoreDesc (fun r => r.combinedScore)
    (weightedCombined semanticWeight bm25Weight semanticResults bm25Results)).take topK

/-- The `all_chunks` dict of `_reciprocal_rank_fusion`:
chunk id to `(chunk, semantic_score, bm25_score)`. -/
def rrfAllChunks (semanticResults bm25Results : List (HChunk × ℚ)) :
    List (String × (HChunk × ℚ × ℚ)) :=
  let m1 := semanticResults.foldl
    (fun m p => alistInsert m p.1.chunkId (p.1, p.2, (0 : ℚ))) []
  bm25Results.foldl
    (fun m p =>
      match alistLookup m p.1.chunkId with
      | some (c, ss, _) => alistInsert m p.1.chunkId (c, ss, p.2)
      | none => alistInsert m p.1.chunkId (p.1, (0 : ℚ), p.2))
    m1

/-- The `semantic_ranks` / `bm25_ranks` dict comprehensions of
`_reciprocal_rank_fusion`: chunk id to 0-indexed `enumerate` rank. -/
def rankDict (results : List (HChunk × ℚ)) : List (String × ℕ) :=
  dictOf (results.enum.map (fun p => (p.2.1.chunkId, p.1)))

/-- The `rrf_results` list of `_reciprocal_rank_fusion` (lines 231-248): a
chunk present at 0-indexed rank `r` in a list contributes
`1/(rrf_k + r + 1)`, absent lists contribute nothing. -/
def rrfScored (rrfK : ℕ) (semanticResults bm25Results : List (HChunk × ℚ)) :
    List HResult :=
  let semanticRanks := rankDict semanticResults
  let bm25Ranks := rankDict bm25Results
  (rrfAllChunks semanticResults bm25Results).map (fun q =>
    let rrfScore : ℚ :=
      (match alistLookup semanticRanks q.1 with
       | some r => 1 / ((rrfK : ℚ) + (r : ℚ) + 1)
       | none => 0) +
      (match alistLookup bm25Ranks q.1 with
       | some r => 1 / ((rrfK : ℚ) + (r : ℚ) + 1)
       | none => 0)
    { chunk := q.2.1, semanticScore := q.2.2.1, bm25Score := q.2.2.2,
      combinedScore := rrfScore, rankFusionScore := rrfScore } )

/-- `HybridRetriever._reciprocal_rank_fusion`. -/
def rrfFusion (rrfK : ℕ) (semanticResults bm25Results : List (HChunk × ℚ))
    (topK : ℕ) : List HResult :=
  (sortByScoreDesc (fun r => r.combinedScore)
    (rrfScored rrfK semanticResults bm25Results)).take topK

/-- `HybridRetriever._max_fusion`. -/
def maxFusion (semanticResults bm25Results : List (HChunk × ℚ)) (topK : ℕ) :
    List HResult :=
  let semanticMap := scoreMap semanticResults
  let bm25Map := scoreMap bm25Results
  let allChunks := allChunksOf (semanticResults ++ bm25Results)
  let maxResults := allChunks.map (fun q =>
    let semanticScore := (alistLookup semanticMap q.1).getD 0
    let bm25Score := (alistLookup bm25Map q.1).getD 0
    { chunk := q.2, semanticScore := semanticScore, bm25Score := bm25Score,
      combinedScore := max semanticScore bm25Score } )
  (sortByScoreDesc (fun r => r.combinedScore) maxResults).take topK

/-- `HybridRetriever.search` lines 150-169: after the embedding, vector-store
and BM25 calls (the two result-list inputs), the fusion dispatch accepts only
`"weighted"`, `"rrf"` and `"max"`; anything else raises `ValueError`. -/
def hybridSearch (semanticResults bm25Results : List (HChunk × ℚ))
    (semanticWeight bm25Weight : ℚ) (rrfK : ℕ) (topK : ℕ)
    (fusionMethod : String) : Except String (List HResult) :=
  if fusionMethod = "weighted" then
    Except.ok (weightedFusion semanticWeight bm25Weight semanticResults bm25Results topK)
  else if fusionMethod = "rrf" then
    Except.ok (rrfFusion rrfK semanticResults bm25Results topK)
  else if fusionMethod = "max" then
    Except.ok (maxFusion semanticResults bm25Results topK)
  else
    Except.error ("Unknown fusion method: " ++ fusionMethod)

end HybridR

/-! ## `app/rag/core.py` — data model and `HybridRAGEngine`

Fields of `DocumentChunk` never read by the embedded pipeline (embedding
vector, char positions, hierarchy, lazily-filled entity/relation lists) are
omitted; the two `metadata` keys the filter logic reads (`doc_type`,
`created_date`) are embedded as optional fields.  Retrievers and rerankers
are registered callables that either return a result list or raise, so they
are embedded as `Except`-valued functions.  Wall-clock fields
(`retrieval_time_ms`, `rerank_time_ms`) are not modelled. -/

namespace RagCore

inductive ChunkType
  | paragraph | sentence | sectionType | table | code | imageCaption | metadataType
  deriving DecidableEq, Repr

structure DocumentChunk where
  id : String
  content : String
  chunkType : ChunkType
  sourceDocId : String
  metaDocType : Option String := none
  metaCreatedDate : Option ℤ := none
  qualityScore : ℚ := 1
  deriving DecidableEq, Repr

structure RetrievalResult where
  chunk : DocumentChunk
  score : ℚ
  retrievalMethod : String
  rank : ℕ := 0
  explanation : Option String := none
  deriving DecidableEq, Repr

inductive RetrievalMode
  | vectorOnly | keywordOnly | graphOnly | hybridVectorKeyword | hybridAll | adaptive
  deriving DecidableEq, Repr

/-- The three `filters` keys `_apply_filters` reads (`doc_types`,
`date_range`, `min_quality_score`); an absent key is `none`. -/
structure Filters where
  docTypes : Option (List String) := none
  dateRange : Option (ℤ × ℤ) := none
  minQualityScore : Option ℚ := none
  deriving DecidableEq, Repr

structure RAGQuery where
  query : String
  topK : ℕ := 10
  retrievalMode : RetrievalMode := RetrievalMode.adaptive
  filters : Filters := {}
  enableReranking : Bool := true
  rerankTopK : ℕ := 5
  deriving Repr

structure RAGResponse where
  query : String
  results : List RetrievalResult
  context : String
  totalDocsSearched : ℕ := 0
  confidenceScore : ℝ
  coverageScore : ℚ

/-- Python's `needle in haystack` substring test. -/
def pyIn (needle haystack : String) : Bool :=
  (haystack.splitOn needle).length ≥ 2

/-- Python's `text.split()`: whitespace split, empty pieces dropped. -/
def pySplit (text : String) : List String :=
  (text.split Char.isWhitespace).filter (fun w => w ≠ "")

/-- A retriever either returns a result list or raises. -/
abbrev Retriever := RAGQuery → List DocumentChunk → Except String (List RetrievalResult)

/-- A reranker either returns a result list or raises. -/
abbrev Reranker := String → List RetrievalResult → Except String (List RetrievalResult)

def defaultRetrievalWeights : List (String × ℚ) :=
  [("vector", 6/10), ("keyword", 3/10), ("graph", 1/10)]

structure Engine where
  retrievers : List (String × Retriever) := []
  rerankers : List Reranker := []
  retrievalWeights : List (String × ℚ) := defaultRetrievalWeights
  queryLengthThreshold : ℕ := 50

def technicalKeywords : List String := ["algorithm", "implementation", "code", "API"]

def relationalWords : List String := ["relationship", "connected", "related", "between"]

/-- `HybridRAGEngine._select_retrieval_mode`. -/
def selectRetrievalMode (eng : Engine) (q : RAGQuery) : RetrievalMode :=
  if q.retrievalMode ≠ RetrievalMode.adaptive then q.retrievalMode
  else
    let queryText := q.query.toLower
    let queryLength := (pySplit queryText).length
    if queryLength > eng.queryLengthThreshold then RetrievalMode.hybridAll
    else if (technicalKeywords.filter (fun kw => pyIn kw queryText)).length > 0 then
      RetrievalMode.hybridVectorKeyword
    else if relationalWords.any (fun w => pyIn w queryText) then RetrievalMode.hybridAll
    else RetrievalMode.hybridVectorKeyword

/-- `HybridRAGEngine._enhance_query`: query expansion is a TODO in the source,
the query object is returned unchanged. -/
def enhanceQuery (q : RAGQuery) : RAGQuery := q

/-- The mode-dependent dispatch list of `_parallel_retrieve` (lines 298-312):
`vector`, then `keyword`, then `graph`, each only if registered. -/
def activeRetrievers (eng : Engine) (mode : RetrievalMode) :
    List (String × Retriever) :=
  ((if mode = RetrievalMode.vectorOnly ∨ mode = RetrievalMode.hybridVectorKeyword ∨
      mode = RetrievalMode.hybridAll then ["vector"] else []) ++
   (if mode = RetrievalMode.keywordOnly ∨ mode = RetrievalMode.hybridVectorKeyword ∨
      mode = RetrievalMode.hybridAll then ["keyword"] else []) ++
   (if mode = RetrievalMode.graphOnly ∨ mode = RetrievalMode.hybridAll then
      ["graph"] else [])).filterMap
    (fun n => (alistLookup eng.retrievers n).map (fun f => (n, f)))

/-- `HybridRAGEngine._parallel_retrieve` result organization (lines 314-326):
a retriever that raised is logged and recorded as an empty list; the others
keep their results. -/
def parallelRetrieve (eng : Engine) (q : RAGQuery) (chunks : List DocumentChunk)
    (mode : RetrievalMode) : List (String × List RetrievalResult) :=
  (activeRetrievers eng mode).map (fun p =>
    (p.1, match p.2 q chunks with
          | Except.ok rs => rs
          | Except.error _ => []))

/-- The weighting loop of `_fuse_results` (lines 336-345): each result's score
is multiplied by the retriever's weight (default `1.0` for an unknown name)
and the method audit string is extended. -/
def applyRetrievalWeights (weights : List (String × ℚ))
    (retrievalResults : List (String × List RetrievalResult)) : List RetrievalResult :=
  retrievalResults.foldl
    (fun allResults p =>
      let w := (alistLookup weights p.1).getD 1
      allResults ++ p.2.map (fun r =>
        { r with score := r.score * w,
                 retrievalMethod := r.retrievalMethod ++ "(" ++ p.1 ++ ")" }))
    []

/-- One step of the `unique_results` dict loop of `_fuse_results`
(lines 347-352): a new chunk id is inserted; an existing one is overwritten
only by a strictly higher score. -/
def dedupStep (m : List (String × RetrievalResult)) (r : RetrievalResult) :
    List (String × RetrievalResult) :=
  match alistLookup m r.chunk.id with
  | none => m ++ [(r.chunk.id, r)]
  | some prev => if prev.score < r.score then alistInsert m r.chunk.id r else m

def dedupByChunkId (allResults : List RetrievalResult) : List RetrievalResult :=
  (allResults.foldl dedupStep []).map Prod.snd

/-- `HybridRAGEngine._fuse_results`: weight, dedup by chunk id keeping the
highest score, sort descending, keep `top_k * 3` candidates. -/
def fuseResults (weights : List (String × ℚ))
    (retrievalResults : List (String × List RetrievalResult)) (topK : ℕ) :
    List RetrievalResult :=
  (sortByScoreDesc (fun r => r.score)
    (dedupByChunkId (applyRetrievalWeights weights retrievalResults))).take (topK * 3)

/-- `HybridRAGEngine._rerank_results`: rerankers run in sequence, a raising
reranker is logged and skipped (its input is passed on unchanged). -/
def rerankResults (rerankers : List Reranker) (query : String)
    (results : List RetrievalResult) : List RetrievalResult :=
  rerankers.foldl
    (fun rs rk => match rk query rs with
                  | Except.ok rs2 => rs2
                  | Except.error _ => rs)
    results

/-- `HybridRAGEngine._apply_filters`. -/
def applyFilters (r : RetrievalResult) (f : Filters) : Bool :=
  (match f.docTypes with
   | some dts => decide ((r.chunk.metaDocType.getD "unknown") ∈ dts)
   | none => true) &&
  (match f.dateRange with
   | some se =>
       match r.chunk.metaCreatedDate with
       | some d => decide (se.1 ≤ d ∧ d ≤ se.2)
       | none => true
   | none => true) &&
  (match f.minQualityScore with
   | some mq => decide (¬ r.chunk.qualityScore < mq)
   | none => true)

/-- `HybridRAGEngine._post_process_results`: rank is assigned from the
enumeration position of the *pre-filter* candidate list, then the filter
predicate drops results. -/
def postProcessResults (results : List RetrievalResult) (q : RAGQuery) :
    List RetrievalResult :=
  (results.enum.map (fun p => { p.2 with rank := p.1 + 1 })).filter
    (fun r => applyFilters r q.filters)

/-- `HybridRAGEngine._generate_context`: per-chunk source header plus content,
joined by newlines.  The header's page-number/score text is elided (float
formatting is not modelled); the structure is kept. -/
def generateContext (results : List RetrievalResult) : String :=
  String.intercalate "\n" (results.map (fun r =>
    "[Source: " ++ r.chunk.sourceDocId ++ "]" ++ "\n" ++ r.chunk.content ++ "\n"))

/-- `HybridRAGEngine._calculate_confidence`: average of the returned scores
scaled down by their (population) standard deviation. -/
noncomputable def calcConfidence (results : List RetrievalResult) : ℝ :=
  match results with
  | [] => 0
  | [r] => min ((r.score : ℝ)) 1
  | _ =>
      let scores := results.map (fun r => r.score)
      let avg : ℚ := scores.sum / (scores.length : ℚ)
      let variance : ℚ := (scores.map (fun s => (s - avg) ^ 2)).sum / (scores.length : ℚ)
      min ((avg : ℝ) * (1 - min (Real.sqrt (variance : ℝ)) (1/2))) 1

/-- `HybridRAGEngine._calculate_coverage`. -/
def calcCoverage (numResults topK : ℕ) : ℚ :=
  min ((numResults : ℚ) / ((min topK 10 : ℕ) : ℚ)) 1

/-- `HybridRAGEngine.retrieve`: the full pipeline.  Per-retriever and
per-reranker failures are already isolated inside `parallelRetrieve` /
`rerankResults`, so the surrounding `try/except` (which would re-raise a
`RAGException`) has nothing left to catch and the call always returns a
response. -/
noncomputable def engineRetrieve (eng : Engine) (q : RAGQuery)
    (chunks : List DocumentChunk) : Except String RAGResponse :=
  let mode := selectRetrievalMode eng q
  let enhanced := enhanceQuery q
  let retrievalResults := parallelRetrieve eng enhanced chunks mode
  let fused := fuseResults eng.retrievalWeights retrievalResults q.topK
  let reranked :=
    if q.enableReranking && !eng.rerankers.isEmpty then
      rerankResults eng.rerankers q.query (fused.take (q.rerankTopK * 2))
    else fused
  let finalResults := postProcessResults reranked q
  Except.ok
    { query := q.query
      results := finalResults.take q.topK
      context := generateContext finalResults
      totalDocsSearched := chunks.length
      confidenceScore := calcConfidence (finalResults.take q.topK)
      coverageScore := calcCoverage (finalResults.take q.topK).length q.topK }

end RagCore

/-! ## `app/rag/rerankers.py` — semantic and diversity rerankers

The cross-encoder is an external collaborator; `semanticRerank` takes its
(batch-normalized) score list as a parameter, exactly the `scores` list of
`SemanticReranker.rerank` lines 95-108. -/

namespace Rerank

open RagCore

/-- `set(content.lower().split())` — the word bag used by
`DiversityReranker._content_similarity`. -/
def wordSet (s : String) : Finset String :=
  (pySplit s.toLower).toFinset

/-- `DiversityReranker._content_similarity`: Jaccard similarity of word bags. -/
def contentSimilarity (content1 content2 : String) : ℚ :=
  let words1 := wordSet content1
  let words2 := wordSet content2
  let inter := (words1 ∩ words2).card
  let union := (words1 ∪ words2).card
  if 0 < union then (inter : ℚ) / (union : ℚ) else 0

/-- `DiversityReranker._calculate_diversity_bonus`: +0.2 for a fresh source,
-0.3 once a source reached `max_same_source`, -0.2·excess above the
similarity threshold, +0.1 for an unseen chunk type. -/
def diversityBonus (threshold : ℚ) (maxSameSource : ℕ)
    (cand : RetrievalResult) (selected : List RetrievalResult)
    (sourceCounts : List (String × ℕ)) : ℚ :=
  let sourceCount := (alistLookup sourceCounts cand.chunk.sourceDocId).getD 0
  let sourceBonus : ℚ :=
    if sourceCount = 0 then 2/10
    else if maxSameSource ≤ sourceCount then -(3/10)
    else 0
  let maxSimilarity := selected.foldl
    (fun m s => max m (contentSimilarity cand.chunk.content s.chunk.content)) 0
  let similarityPenalty : ℚ :=
    if threshold < maxSimilarity then -(2/10) * (maxSimilarity - threshold) else 0
  let typeBonus : ℚ :=
    if selected.all (fun s => s.chunk.chunkType ≠ cand.chunk.chunkType) then 1/10 else 0
  sourceBonus + similarityPenalty + typeBonus

/-- The candidate scan of `DiversityReranker.rerank` lines 447-463:
`best_score` starts at `-1` and only a strictly greater
`score + diversity_bonus` takes over, so `none` means no candidate beat `-1`. -/
def pickBest (threshold : ℚ) (maxSameSource : ℕ)
    (remaining selected : List RetrievalResult)
    (sourceCounts : List (String × ℕ)) : Option (RetrievalResult × ℕ) :=
  (remaining.enum.foldl
    (fun acc p =>
      let combined := p.2.score + diversityBonus threshold maxSameSource p.2 selected sourceCounts
      match acc with
      | none => if -1 < combined then some (p.2, p.1, combined) else none
      | some t => if t.2.2 < combined then some (p.2, p.1, combined) else acc)
    none).map (fun t => (t.1, t.2.1))

/-- The greedy selection loop of `DiversityReranker.rerank` (lines 443-471);
the fuel is the `range(len(remaining_results))` bound computed once at loop
entry.  An iteration that picks nobody changes nothing. -/
def diversityGo (threshold : ℚ) (maxSameSource : ℕ) :
    ℕ → List RetrievalResult → List (String × ℕ) → List RetrievalResult →
    List RetrievalResult
  | 0, selected, _, _ => selected
  | fuel + 1, selected, sourceCounts, remaining =>
      if remaining.isEmpty then selected
      else
        match pickBest threshold maxSameSource remaining selected sourceCounts with
        | none => diversityGo threshold maxSameSource fuel selected sourceCounts remaining
        | some (best, idx) =>
            let sid := best.chunk.sourceDocId
            let sourceCounts' := alistInsert sourceCounts sid
              ((alistLookup sourceCounts sid).getD 0 + 1)
            diversityGo threshold maxSameSource fuel (selected ++ [best])
              sourceCounts' (remaining.eraseIdx idx)

/-- `DiversityReranker.rerank` (defaults `diversity_threshold=0.8`,
`max_same_source=3`): keep the first result, greedily append the remaining
candidate maximizing `score + diversity_bonus`, then reassign `rank` 1..N. -/
def diversityRerank (threshold : ℚ) (maxSameSource : ℕ)
    (results : List RetrievalResult) : List RetrievalResult :=
  match results with
  | [] => []
  | best :: remaining =>
      let selected := diversityGo threshold maxSameSource remaining.length
        [best] [(best.chunk.sourceDocId, 1)] remaining
      selected.enum.map (fun p =>
        { p.2 with rank := p.1 + 1,
                   retrievalMethod := p.2.retrievalMethod ++ "+diversity_rerank" })

/-- `SemanticReranker.rerank` lines 95-108, given the cross-encoder's
normalized batch scores: blend `0.3*original + 0.7*semantic`, tag the method,
sort by descending score.  `rank` is never touched. -/
def semanticRerank (crossScores : List ℚ) (results : List RetrievalResult) :
    List RetrievalResult :=
  if results.isEmpty then results
  else
    sortByScoreDesc (fun r => r.score)
      (results.enum.map (fun p =>
        if p.1 < crossScores.length then
          { p.2 with score := 3/10 * p.2.score + 7/10 * crossScores.getD p.1 0,
                     retrievalMethod := p.2.retrievalMethod ++ "+semantic_rerank" }
        else p.2))

end Rerank

/-! ## `app/rag/graph_retriever.py` — entity merging in `KnowledgeGraph`

Entity extraction (`extract_entities_from_text`, spaCy NER plus pattern
matching) is the external NLP collaborator; it enters `buildEntities` as the
`extract` parameter mapping chunk content to raw extracted entities.  A
generated entity id `entity_{len(self.entities)}_{hash(...)}` is modelled by
its `len(self.entities)` counter component. -/

namespace Graph

structure Entity where
  id : ℕ
  name : String
  entityType : String
  mentions : List String
  frequency : ℕ
  deriving DecidableEq, Repr

/-- An extracted entity as produced by the NLP collaborator, before the graph
assigns frequency. -/
structure RawEntity where
  name : String
  entityType : String
  mentions : List String
  deriving DecidableEq, Repr

/-- `KnowledgeGraph._levenshtein_distance` inner row computation:
`current_row` starts as `[i+1]` and each `j` appends
`min(previous_row[j+1]+1, current_row[j]+1, previous_row[j]+(c1!=c2))`. -/
def levRow (c1 : Char) (s2 : List Char) (i : ℕ) (previousRow : List ℕ) : List ℕ :=
  (s2.enum.foldl
    (fun acc p =>
      let insertions := previousRow.getD (p.1 + 1) 0 + 1
      let deletions := acc.2 + 1
      let substitutions := previousRow.getD p.1 0 + (if c1 = p.2 then 0 else 1)
      let m := min insertions (min deletions substitutions)
      (acc.1 ++ [m], m))
    ([i + 1], i + 1)).1

/-- The row-DP body of `_levenshtein_distance` after the swap guard. -/
def levAux (s1 s2 : List Char) : ℕ :=
  if s2.length = 0 then s1.length
  else
    ((s1.enum.foldl (fun prev p => levRow p.2 s2 p.1 prev)
      (List.range (s2.length + 1))).getLast?).getD 0

/-- `KnowledgeGraph._levenshtein_distance`: arguments are swapped so the
first is the longer one, then the row DP runs. -/
def levenshtein (s1 s2 : List Char) : ℕ :=
  if s1.length < s2.length then levAux s2 s1 else levAux s1 s2

/-- `KnowledgeGraph._similarity_score`: Levenshtein ratio on the longer
string. -/
def similarityScore (text1 text2 : String) : ℚ :=
  if text1 = text2 then 1
  else
    let longer := if text2.length < text1.length then text1 else text2
    let shorter := if text2.length < text1.length then text2 else text1
    if longer.length = 0 then 0
    else
      let editDistance := levenshtein longer.data shorter.data
      ((longer.length : ℚ) - (editDistance : ℚ)) / (longer.length : ℚ)

/-- The match condition of `KnowledgeGraph._find_similar_entity` (Python
`A or B and C` parses as `A or (B and C)`): exact case-insensitive name
match, or same type with name similarity above 0.8. -/
def entityMatches (existing : Entity) (e : RawEntity) : Prop :=
  existing.name.toLower = e.name.toLower ∨
    (existing.entityType = e.entityType ∧ 8/10 < similarityScore existing.name e.name)

instance (existing : Entity) (e : RawEntity) : Decidable (entityMatches existing e) := by
  unfold entityMatches; infer_instance

/-- Merge into the first matching entity (`_find_similar_entity` scans
`self.entities.values()` in insertion order): union mentions, bump
frequency. -/
def updateFirstMatch : List Entity → RawEntity → List Entity
  | [], _ => []
  | x :: xs, e =>
      if entityMatches x e then
        { x with mentions := x.mentions ++ e.mentions,
                 frequency := x.frequency + 1 } :: xs
      else x :: updateFirstMatch xs e

/-- One entity of the first pass of `KnowledgeGraph.build_from_chunks`
(lines 252-263): merge into a similar existing entity, or add it fresh with
frequency 1. -/
def mergeRaw (es : List Entity) (e : RawEntity) : List Entity :=
  if (es.find? (fun x => decide (entityMatches x e))).isSome then
    updateFirstMatch es e
  else
    es ++ [{ id := es.length, name := e.name, entityType := e.entityType,
             mentions := e.mentions, frequency := 1 }]

/-- The entity-extraction-and-merge pass of `build_from_chunks` over a chunk
pool (the claim's "entity merge" run). -/
def buildEntities (extract : String → List RawEntity) (es : List Entity)
    (chunks : List String) : List Entity :=
  chunks.foldl (fun s c => (extract c).foldl mergeRaw s) es

end Graph

/-! ## `app/rag/hybrid_retriever.py` — `BM25Retriever`

The index state after one `add_documents(chunks)` call is determined by the
tokenized documents, so scoring is embedded over the token-list corpus:
`docFreq`/`avgdl`/`idf` are the `doc_freqs`/`avgdl`/`idf_cache` tables built
by `add_documents`, and `docScore` is the per-document score loop of
`search` (lines 81-98).  `math.log` forces the score into `ℝ`; every other
quantity stays in `ℚ`. -/

namespace BM25

/-- `BM25Retriever._tokenize`: lower-case, replace non-word characters by a
space (ASCII model of `\w` = alphanumeric or underscore), split on
whitespace, drop tokens of length ≤ 1. -/
def tokenize (text : String) : List String :=
  let cleaned := String.mk (text.toLower.data.map
    (fun c => if c.isAlphanum ∨ c = '_' ∨ c.isWhitespace then c else ' '))
  (cleaned.split Char.isWhitespace).filter (fun t => 1 < t.length)

/-- `collections.Counter(tokens).items()` iterates the distinct tokens in
first-occurrence order. -/
def pyDedupAux : List String → List String → List String
  | _, [] => []
  | seen, x :: xs =>
      if x ∈ seen then pyDedupAux seen xs else x :: pyDedupAux (x :: seen) xs

def pyDedup (l : List String) : List String := pyDedupAux [] l

/-- `doc_freqs[t]` after indexing `docs`: the number of documents whose token
set contains `t`. -/
def docFreq (docs : List (List String)) (t : String) : ℕ :=
  (docs.filter (fun d => t ∈ d)).length

/-- `avgdl`: average tokenized document length (0 for an empty index). -/
def avgdl (docs : List (List String)) : ℚ :=
  if docs.isEmpty then 0
  else ((docs.map List.length).sum : ℚ) / (docs.length : ℚ)

/-- The argument of the IDF logarithm: `(N - df + 0.5) / (df + 0.5)`. -/
def idfArg (docs : List (List String)) (t : String) : ℚ :=
  ((docs.length : ℚ) - (docFreq docs t : ℚ) + 1/2) / ((docFreq docs t : ℚ) + 1/2)

/-- `idf_cache[t] = math.log((N - df + 0.5) / (df + 0.5))`. -/
noncomputable def idf (docs : List (List String)) (t : String) : ℝ :=
  Real.log ((idfArg docs t : ℚ) : ℝ)

/-- The BM25 term-frequency factor
`tf*(k1+1) / (tf + k1*(1 - b + b*|d|/avgdl))`. -/
def tfWeight (k1 b : ℚ) (docs : List (List String)) (d : List String)
    (t : String) : ℚ :=
  let tf : ℚ := (d.count t : ℚ)
  (tf * (k1 + 1)) / (tf + k1 * (1 - b + b * (d.length : ℚ) / avgdl docs))

/-- The per-document score loop of `BM25Retriever.search`: over the distinct
query tokens, a token absent from the document contributes nothing, a
present one contributes `idf * tfWeight`.  Defaults `k1 = 1.2`, `b = 0.75`. -/
noncomputable def docScore (k1 b : ℚ) (docs : List (List String))
    (queryTokens : List String) (d : List String) : ℝ :=
  (pyDedup queryTokens).foldl
    (fun acc t =>
      if 0 < d.count t then acc + idf docs t * ((tfWeight k1 b docs d t : ℚ) : ℝ)
      else acc)
    0

end BM25

/-! ## Refinement comparison definition for the weighted-fusion claim -/

/-- Following the spec's words (for comparison with `RagCore.fuseResults`):
min-max normalize each retriever's score list independently, then give a
chunk the sum over methods of `weight[method] * normalized_score[method]`,
a method that did not return the chunk contributing 0. -/
def specWeightedCombined (weights : List (String × ℚ))
    (retrievalResults : List (String × List RagCore.RetrievalResult))
    (cid : String) : ℚ :=
  (retrievalResults.map (fun p =>
    let normalized := HybridR.normalizeScores (p.2.map (fun r => r.score))
    let m := dictOf (List.zip (p.2.map (fun r => r.chunk.id)) normalized)
    ((alistLookup weights p.1).getD 0) * ((alistLookup m cid).getD 0))).sum

/-! ## Concrete inputs used by the claim theorems -/

namespace Examples

open RagCore HybridR

/-- A retriever whose call raises (connection failure). -/
def failRetriever : Retriever := fun _ _ => Except.error "connection refused"

/-- An engine whose vector, keyword and graph retrievers all raise. -/
def failEngine : Engine :=
  { retrievers :=
      [("vector", failRetriever), ("keyword", failRetriever), ("graph", failRetriever)] }

def allModeQuery : RAGQuery :=
  { query := "how are these topics related",
    retrievalMode := RetrievalMode.hybridAll }

def poolChunk : DocumentChunk :=
  { id := "c1", content := "Python is a programming language.",
    chunkType := ChunkType.paragraph, sourceDocId := "doc1" }

def chunkA : DocumentChunk :=
  { id := "a", content := "alpha", chunkType := ChunkType.paragraph,
    sourceDocId := "d1" }

/-- Chunk `a` returned by the vector retriever with raw score 1. -/
def vectorHitA : RetrievalResult :=
  { chunk := chunkA, score := 1, retrievalMethod := "vector" }

/-- Chunk `a` returned by the keyword retriever with raw score 1. -/
def keywordHitA : RetrievalResult :=
  { chunk := chunkA, score := 1, retrievalMethod := "keyword" }

def bothHitA : List (String × List RetrievalResult) :=
  [("vector", [vectorHitA]), ("keyword", [keywordHitA])]

def divChunk (cid src content : String) : DocumentChunk :=
  { id := cid, content := content, chunkType := ChunkType.paragraph,
    sourceDocId := src }

/-- Six candidates, five of which share source `s`. -/
def divResults : List RetrievalResult :=
  [ { chunk := divChunk "r1" "s" "alpha", score := 9/10, retrievalMethod := "vector" },
    { chunk := divChunk "r2" "s" "beta", score := 8/10, retrievalMethod := "vector" },
    { chunk := divChunk "r3" "s" "gamma", score := 7/10, retrievalMethod := "vector" },
    { chunk := divChunk "r4" "s" "delta", score := 6/10, retrievalMethod := "vector" },
    { chunk := divChunk "r5" "s" "epsilon", score := 5/10, retrievalMethod := "vector" },
    { chunk := divChunk "r6" "t" "zeta", score := 4/10, retrievalMethod := "vector" } ]

def lowQualityRes : RetrievalResult :=
  { chunk := { id := "lq", content := "noise", chunkType := ChunkType.paragraph,
               sourceDocId := "d1", qualityScore := 1/5 },
    score := 9/10, retrievalMethod := "vector" }

def highQualityRes : RetrievalResult :=
  { chunk := { id := "hq", content := "signal", chunkType := ChunkType.paragraph,
               sourceDocId := "d2", qualityScore := 9/10 },
    score := 8/10, retrievalMethod := "vector" }

/-- A query filtering on `min_quality_score = 0.5`. -/
def qualityQuery : RAGQuery :=
  { query := "q", filters := { minQualityScore := some (1/2) } }

/-- An extractor returning one entity named after the chunk content. -/
def oneEntityExtract : String → List Graph.RawEntity :=
  fun s => [{ name := s, entityType := "TECH", mentions := [s] }]

def pythonChunks : List String := ["Python"]

def hChunk (cid : String) : HChunk := { chunkId := cid, content := cid }

def semList : List (HChunk × ℚ) := [(hChunk "a", 9/10), (hChunk "b", 1/2)]

def bmList : List (HChunk × ℚ) := [(hChunk "b", 3), (hChunk "c", 1)]

/-- The fused entry for chunk `b`: ranked 1st by the semantic list and 0th by
the BM25 list. -/
def rrfResB : HybridR.HResult :=
  { chunk := hChunk "b", semanticScore := 1/2, bm25Score := 3,
    combinedScore := 1/62 + 1/61, rankFusionScore := 1/62 + 1/61 }

/-- The weighted-fusion entry for chunk `a` over `semList`/`bmList`
(normalized semantic score 1, absent from no list but normalized BM25 score
0). -/
def whResA (semanticWeight bm25Weight : ℚ) : HybridR.HResult :=
  { chunk := hChunk "a", semanticScore := 1, bm25Score := 0,
    combinedScore := semanticWeight * 1 + bm25Weight * 0 }

/-- A query with no filters set. -/
def noFilterQuery : RAGQuery := { query := "plain question" }

/-- `vectorHitA` after `_fuse_results` applies the vector weight 0.6. -/
def weightedHitA : RetrievalResult :=
  { chunk := chunkA, score := 3/5, retrievalMethod := "vector(vector)" }

/-- `keywordHitA` after `_fuse_results` applies the keyword weight 0.3. -/
def weightedKeyHitA : RetrievalResult :=
  { chunk := chunkA, score := 3/10, retrievalMethod := "keyword(keyword)" }

/-- 12 tokenized-content documents: the only difference between the first two
is one extra occurrence of the query term `aa`; `aa` sits in exactly half the
corpus (zero idf), `bb` only in the first two (positive idf). -/
def bmContents12 : List String :=
  ["aa bb", "aa aa bb", "aa cc", "aa cc", "aa cc", "aa cc",
   "dd ee", "dd ee", "dd ee", "dd ee", "dd ee", "dd ee"]

def bmCorpus12 : List (List String) := bmContents12.map BM25.tokenize

/-- 5 documents where the term `tt` is rare (positive idf). -/
def bmCorpus5 : List (List String) :=
  [["tt", "xx"], ["tt", "tt", "xx"], ["yy"], ["yy"], ["yy"]]

end Examples

/-! ## Generic lemmas: association lists, stable sort, fold bounds -/

section DictLemmas

variable {α : Type} {β : Type} [DecidableEq α]

theorem alistLookup_cons (p : α × β) (m : List (α × β)) (k : α) :
    alistLookup (p :: m) k = if p.1 = k then some p.2 else alistLookup m k := by
  simp only [alistLookup, List.find?]
  by_cases h : p.1 = k <;> simp [h]

theorem alistLookup_nil (k : α) :
    alistLookup ([] : List (α × β)) k = none := rfl

theorem alistLookup_eq_none (m : List (α × β)) (k : α) :
    alistLookup m k = none ↔ k ∉ m.map Prod.fst := by
  constructor
  · intro h hk
    rcases List.mem_map.1 hk with ⟨p, hp, hpk⟩
    simp only [alistLookup] at h
    cases hfind : m.find? (fun q => q.1 = k) with
    | some q => simp [hfind] at h
    | none =>
        have := List.find?_eq_none.1 hfind p hp
        simp [hpk] at this
  · intro h
    simp only [alistLookup]
    cases hfind : m.find? (fun q => q.1 = k) with
    | some q =>
        have hq := List.find?_some hfind
        have hmem := List.mem_of_find?_eq_some hfind
        exact absurd (List.mem_map.2 ⟨q, hmem, by simpa using hq⟩) h
    | none => rfl

theorem alistLookup_mem (m : List (α × β)) (k : α) (v : β)
    (h : alistLookup m k = some v) : (k, v) ∈ m := by
  simp only [alistLookup] at h
  cases hfind : m.find? (fun q => q.1 = k) with
  | some q =>
      rw [hfind] at h
      have hq : q.1 = k := by simpa using List.find?_some hfind
      have hmem := List.mem_of_find?_eq_some hfind
      cases q with
      | mk a b =>
          simp at h hq
          subst hq; subst h; exact hmem
  | none => rw [hfind] at h; cases h

theorem alistInsert_keys (m : List (α × β)) (k : α) (v : β) :
    (alistInsert m k v).map Prod.fst =
      if k ∈ m.map Prod.fst then m.map Prod.fst else m.map Prod.fst ++ [k] := by
  induction m with
  | nil => simp [alistInsert]
  | cons p rest ih =>
      by_cases h : p.1 = k
      · simp [alistInsert, h]
      · simp only [alistInsert, if_neg h, List.map_cons, ih]
        have : ¬ k = p.1 := fun hh => h hh.symm
        by_cases hk : k ∈ rest.map Prod.fst <;> simp [hk, this]

theorem alistInsert_mem (m : List (α × β)) (k : α) (v : β) (p : α × β)
    (h : p ∈ alistInsert m k v) : p = (k, v) ∨ p ∈ m := by
  induction m with
  | nil => simp [alistInsert] at h; exact Or.inl h
  | cons q rest ih =>
      by_cases hq : q.1 = k
      · simp only [alistInsert, if_pos hq, List.mem_cons] at h
        rcases h with h | h
        · exact Or.inl h
        · exact Or.inr (List.mem_cons_of_mem _ h)
      · simp only [alistInsert, if_neg hq, List.mem_cons] at h
        rcases h with h | h
        · exact Or.inr (by simp [h])
        · rcases ih h with h1 | h1
          · exact Or.inl h1
          · exact Or.inr (List.mem_cons_of_mem _ h1)

theorem alistInsert_fresh (m : List (α × β)) (k : α) (v : β)
    (h : k ∉ m.map Prod.fst) : alistInsert m k v = m ++ [(k, v)] := by
  induction m with
  | nil => simp [alistInsert]
  | cons p rest ih =>
      simp only [List.map_cons, List.mem_cons] at h
      push_neg at h
      have hp : ¬ p.1 = k := fun hh => h.1 hh.symm
      simp [alistInsert, hp, ih h.2]

theorem alistInsert_values_subset (m : List (α × β)) (k : α) (v : β) :
    ∀ w ∈ (alistInsert m k v).map Prod.snd, w = v ∨ w ∈ m.map Prod.snd := by
  intro w hw
  rcases List.mem_map.1 hw with ⟨p, hp, hpw⟩
  rcases alistInsert_mem m k v p hp with h | h
  · left; rw [← hpw, h]
  · right; exact List.mem_map.2 ⟨p, h, hpw⟩

theorem dictOf_values_subset (ps : List (α × β)) :
    ∀ w ∈ (dictOf ps).map Prod.snd, w ∈ ps.map Prod.snd := by
  suffices h : ∀ (acc : List (α × β)),
      ∀ w ∈ (ps.foldl (fun m p => alistInsert m p.1 p.2) acc).map Prod.snd,
        w ∈ acc.map Prod.snd ∨ w ∈ ps.map Prod.snd by
    intro w hw
    rcases h [] w hw with h1 | h1
    · simp at h1
    · exact h1
  induction ps with
  | nil => intro acc w hw; exact Or.inl hw
  | cons p rest ih =>
      intro acc w hw
      simp only [List.foldl_cons] at hw
      rcases ih (alistInsert acc p.1 p.2) w hw with h1 | h1
      · rcases alistInsert_values_subset acc p.1 p.2 w h1 with h2 | h2
        · exact Or.inr (by simp [h2])
        · exact Or.inl h2
      · exact Or.inr (by simp [h1])

theorem dictOf_keys_subset (ps : List (α × β)) :
    ∀ k ∈ (dictOf ps).map Prod.fst, k ∈ ps.map Prod.fst := by
  suffices h : ∀ (acc : List (α × β)),
      ∀ k ∈ (ps.foldl (fun m p => alistInsert m p.1 p.2) acc).map Prod.fst,
        k ∈ acc.map Prod.fst ∨ k ∈ ps.map Prod.fst by
    intro k hk
    rcases h [] k hk with h1 | h1
    · simp at h1
    · exact h1
  induction ps with
  | nil => intro acc k hk; exact Or.inl hk
  | cons p rest ih =>
      intro acc k hk
      simp only [List.foldl_cons] at hk
      rcases ih (alistInsert acc p.1 p.2) k hk with h1 | h1
      · rw [alistInsert_keys] at h1
        by_cases hmem : p.1 ∈ acc.map Prod.fst
        · rw [if_pos hmem] at h1; exact Or.inl h1
        · rw [if_neg hmem] at h1
          rcases List.mem_append.1 h1 with h2 | h2
          · exact Or.inl h2
          · simp at h2; exact Or.inr (by simp [h2])
      · exact Or.inr (by simp [h1])

theorem dictOf_eq_self (ps : List (α × β)) (h : (ps.map Prod.fst).Nodup) :
    dictOf ps = ps := by
  have hgen : ∀ (qs acc : List (α × β)), ((acc ++ qs).map Prod.fst).Nodup →
      qs.foldl (fun m p => alistInsert m p.1 p.2) acc = acc ++ qs := by
    intro qs
    induction qs with
    | nil => intro acc _; simp
    | cons p rest ih =>
        intro acc hacc
        have hfresh : p.1 ∉ acc.map Prod.fst := by
          intro hmem
          rw [List.map_append, List.nodup_append] at hacc
          exact hacc.2.2 hmem (by simp)
        simp only [List.foldl_cons, alistInsert_fresh acc p.1 p.2 hfresh]
        have := ih (acc ++ [(p.1, p.2)]) (by simpa using hacc)
        simpa using this
  simpa using hgen ps [] (by simpa using h)

end DictLemmas

section SortLemmas

variable {γ : Type}

theorem insertDesc_perm (score : γ → ℚ) (x : γ) (l : List γ) :
    List.Perm (insertDesc score x l) (x :: l) := by
  induction l with
  | nil => simp [insertDesc]
  | cons y ys ih =>
      by_cases h : score y < score x
      · simp [insertDesc, h]
      · simp only [insertDesc, if_neg h]
        exact (ih.cons y).trans (List.Perm.swap x y ys)

theorem sortByScoreDesc_perm (score : γ → ℚ) (l : List γ) :
    List.Perm (sortByScoreDesc score l) l := by
  induction l with
  | nil => simp [sortByScoreDesc]
  | cons y ys ih =>
      simp only [sortByScoreDesc, List.foldr_cons]
      exact (insertDesc_perm score y _).trans (ih.cons y)

theorem mem_sortByScoreDesc (score : γ → ℚ) (l : List γ) (x : γ) :
    x ∈ sortByScoreDesc score l ↔ x ∈ l :=
  (sortByScoreDesc_perm score l).mem_iff

end SortLemmas

theorem foldl_min_le_init (l : List ℚ) (a : ℚ) : l.foldl min a ≤ a := by
  induction l generalizing a with
  | nil => simp
  | cons x xs ih => exact le_trans (ih (min a x)) (min_le_left a x)

theorem foldl_min_le_mem (l : List ℚ) (a x : ℚ) (hx : x ∈ l) : l.foldl min a ≤ x := by
  induction l generalizing a with
  | nil => cases hx
  | cons y ys ih =>
      rcases List.mem_cons.1 hx with h | h
      · subst h
        exact le_trans (foldl_min_le_init ys (min a x)) (min_le_right a x)
      · exact ih (min a y) h

theorem le_foldl_max_init (l : List ℚ) (a : ℚ) : a ≤ l.foldl max a := by
  induction l generalizing a with
  | nil => simp
  | cons x xs ih => exact le_trans (le_max_left a x) (ih (max a x))

theorem le_foldl_max_mem (l : List ℚ) (a x : ℚ) (hx : x ∈ l) : x ≤ l.foldl max a := by
  induction l generalizing a with
  | nil => cases hx
  | cons y ys ih =>
      rcases List.mem_cons.1 hx with h | h
      · subst h
        exact le_trans (le_max_right a x) (le_foldl_max_init ys (max a x))
      · exact ih (max a y) h

/-! ## Claim C10 -/

/-- C10: for every `fusion_method` argument outside `{"weighted", "rrf",
"max"}`, `HybridRetriever.search` raises `ValueError` instead of returning a
result list. -/
theorem hybridSearch_unknown_method_raises
    (semanticResults bm25Results : List (HybridR.HChunk × ℚ))
    (semanticWeight bm25Weight : ℚ) (rrfK topK : ℕ) (method : String)
    (h1 : method ≠ "weighted") (h2 : method ≠ "rrf") (h3 : method ≠ "max") :
    HybridR.hybridSearch semanticResults bm25Results semanticWeight bm25Weight
        rrfK topK method =
      Except.error ("Unknown fusion method: " ++ method) := by
  simp [HybridR.hybridSearch, h1, h2, h3]

/-- Witness for C10 at the method string `"cosine"`. -/
theorem hybridSearch_unknown_method_raises_witness :
    HybridR.hybridSearch Examples.semList Examples.bmList (6/10) (4/10) 60 10
        "cosine" =
      Except.error ("Unknown fusion method: " ++ "cosine") :=
  hybridSearch_unknown_method_raises Examples.semList Examples.bmList (6/10)
    (4/10) 60 10 "cosine" (by decide) (by decide) (by decide)

/-! ## Claim C2 — counterexample -/

set_option maxRecDepth 10000 in
/-- C2 counterexample: chunk `a` is returned by both the vector and the
keyword retriever with raw score 1.  The claim's formula (normalize each list
to [0,1], then sum `weight * normalized` over the methods, weights
vector 0.6 / keyword 0.3) predicts `0.6*1 + 0.3*1 = 0.9`; the engine's
`_fuse_results` instead multiplies each raw score by its weight and keeps the
single highest weighted score, giving `0.6`. -/
theorem fuse_results_weights_max_not_normalized_sum :
    (RagCore.fuseResults RagCore.defaultRetrievalWeights Examples.bothHitA 10).map
        (fun r => r.score) = [3/5] ∧
    specWeightedCombined RagCore.defaultRetrievalWeights Examples.bothHitA "a" =
      9/10 ∧
    (3/5 : ℚ) ≠ 9/10 := by
  with_unfolding_all decide

/-! ## Claim C3 — counterexample -/

set_option maxRecDepth 10000 in
/-- C3 counterexample: on the six-candidate pool where five candidates share
source `s`, the diversity reranker configured with `max_same_source = 2`
(default threshold 0.8) returns all five `s`-sourced results — the output
has 5 of them, not at most 2.  `max_same_source` only drives a score penalty
during greedy selection; no result is ever dropped. -/
theorem diversity_rerank_no_source_cap :
    ((Rerank.diversityRerank (4/5) 2 Examples.divResults).filter
        (fun r => r.chunk.sourceDocId = "s")).length = 5 ∧ ¬ (5 : ℕ) ≤ 2 := by
  with_unfolding_all decide

/-! ## Claim C4 — counterexample -/

set_option maxRecDepth 10000 in
/-- C4 counterexample: `_post_process_results` assigns `rank` from the
pre-filter enumeration and then filters, so with a `min_quality_score`
filter dropping the first candidate the returned list is `[rank 2]`, not the
dense `[1]`; and `SemanticReranker.rerank` never reassigns `rank` (both
outputs keep their input rank 0 instead of 1..2). -/
theorem postprocess_rank_gap_and_semantic_rank_untouched :
    (RagCore.postProcessResults [Examples.lowQualityRes, Examples.highQualityRes]
        Examples.qualityQuery).map (fun r => r.rank) = [2] ∧
    ([2] : List ℕ) ≠ List.range' 1
      (RagCore.postProcessResults [Examples.lowQualityRes, Examples.highQualityRes]
        Examples.qualityQuery).length ∧
    (Rerank.semanticRerank [1/2, 1/4]
        [Examples.lowQualityRes, Examples.highQualityRes]).map (fun r => r.rank) =
      [0, 0] ∧
    ([0, 0] : List ℕ) ≠ List.range' 1 2 := by
  with_unfolding_all decide

/-! ## Claim C5 — counterexample -/

set_option maxRecDepth 10000 in
/-- C5 counterexample: one chunk `"Python"` with an extractor returning one
entity per chunk.  One merge run yields frequency 1, running the merge a
second time over the same chunk set finds the existing entity and increments
its frequency to 2 — the entity sets differ by frequency, so the merge is
not idempotent. -/
theorem entity_merge_not_idempotent :
    (Graph.buildEntities Examples.oneEntityExtract
        (Graph.buildEntities Examples.oneEntityExtract [] Examples.pythonChunks)
        Examples.pythonChunks).map (fun e => (e.id, e.name, e.frequency)) ≠
      (Graph.buildEntities Examples.oneEntityExtract [] Examples.pythonChunks).map
        (fun e => (e.id, e.name, e.frequency)) := by
  with_unfolding_all decide

/-! ## Claim C1 — counterexample -/

/-- C1 counterexample: with vector, keyword and graph retrievers all raising,
`HybridRAGEngine.retrieve` does not raise any `NoCandidatesError` (no such
error exists in the code); every per-retriever exception is swallowed by
`_parallel_retrieve` and the call returns a successful `RAGResponse` with an
empty result list. -/
theorem all_retrievers_fail_returns_empty_success :
    (RagCore.engineRetrieve Examples.failEngine Examples.allModeQuery
        [Examples.poolChunk]).map (fun resp => resp.results) = Except.ok [] := by
  rfl

/-! ## Claim C9 -/

theorem normalizeScores_bounds (l : List ℚ) :
    ∀ x ∈ HybridR.normalizeScores l, 0 ≤ x ∧ x ≤ 1 := by
  match l with
  | [] => intro x hx; simp [HybridR.normalizeScores] at hx
  | s :: rest =>
      intro x hx
      simp only [HybridR.normalizeScores] at hx
      have hmem_lo : ∀ y ∈ s :: rest, rest.foldl min s ≤ y := by
        intro y hy
        rcases List.mem_cons.1 hy with h | h
        · subst h; exact foldl_min_le_init rest y
        · exact foldl_min_le_mem rest s y h
      have hmem_hi : ∀ y ∈ s :: rest, y ≤ rest.foldl max s := by
        intro y hy
        rcases List.mem_cons.1 hy with h | h
        · subst h; exact le_foldl_max_init rest y
        · exact le_foldl_max_mem rest s y h
      by_cases heq : rest.foldl max s = rest.foldl min s
      · rw [if_pos heq] at hx
        rcases List.mem_map.1 hx with ⟨y, _, rfl⟩
        norm_num
      · rw [if_neg heq] at hx
        rcases List.mem_map.1 hx with ⟨y, hy, rfl⟩
        have h1 : rest.foldl min s ≤ y := hmem_lo y hy
        have h2 : y ≤ rest.foldl max s := hmem_hi y hy
        have hle : rest.foldl min s ≤ rest.foldl max s :=
          le_trans (hmem_lo s (by simp)) (hmem_hi s (by simp))
        have hlt : rest.foldl min s < rest.foldl max s :=
          lt_of_le_of_ne hle (fun hh => heq hh.symm)
        constructor
        · exact div_nonneg (by linarith) (by linarith)
        · rw [div_le_one (by linarith)]; linarith

theorem scoreMap_lookup_bounds (results : List (HybridR.HChunk × ℚ)) (cid : String) :
    0 ≤ (alistLookup (HybridR.scoreMap results) cid).getD 0 ∧
      (alistLookup (HybridR.scoreMap results) cid).getD 0 ≤ 1 := by
  cases hl : alistLookup (HybridR.scoreMap results) cid with
  | none => simp
  | some v =>
      have hmem := alistLookup_mem _ _ _ hl
      have hv : v ∈ (HybridR.scoreMap results).map Prod.snd :=
        List.mem_map.2 ⟨(cid, v), hmem, rfl⟩
      have hv2 := dictOf_values_subset
        (List.zip (results.map (fun p => p.1.chunkId))
          (HybridR.normalizeScores (results.map (fun p => p.2)))) v hv
      rcases List.mem_map.1 hv2 with ⟨p, hp, hpv⟩
      have hmem2 := (List.of_mem_zip (by rwa [(by cases p; rfl :
        p = (p.1, p.2))] at hp)).2
      have hb := normalizeScores_bounds (results.map (fun q => q.2)) p.2 hmem2
      simp only [Option.getD_some]
      rw [← hpv]
      exact hb

theorem mem_sort_take {γ : Type} (score : γ → ℚ) (l : List γ) (n : ℕ) (x : γ)
    (hx : x ∈ l) (hlen : l.length ≤ n) : x ∈ (sortByScoreDesc score l).take n := by
  have hperm := sortByScoreDesc_perm score l
  rw [List.take_of_length_le (by rw [hperm.length_eq]; exact hlen)]
  exact (mem_sortByScoreDesc score l x).mpr hx

/-- C9: after `HybridRetriever.__init__` divides positive constructor weights
by their total, the stored `semantic_weight`/`bm25_weight` pair sums to
exactly 1, and every combined score produced by `_weighted_fusion` with the
stored weights is a convex combination of two min-max-normalized scores
(missing methods contributing 0), hence lies in [0,1]. -/
theorem hybrid_weights_sum_one_and_fusion_bounded (sw bw : ℚ)
    (hsw : 0 < sw) (hbw : 0 < bw) :
    (HybridR.hybridInitWeights sw bw).1 + (HybridR.hybridInitWeights sw bw).2 = 1 ∧
    ∀ (semanticResults bm25Results : List (HybridR.HChunk × ℚ)) (topK : ℕ)
      (r : HybridR.HResult),
      r ∈ HybridR.weightedFusion (HybridR.hybridInitWeights sw bw).1
            (HybridR.hybridInitWeights sw bw).2 semanticResults bm25Results topK →
      0 ≤ r.combinedScore ∧ r.combinedScore ≤ 1 := by
  have htot : (0 : ℚ) < sw + bw := by linarith
  have hne : sw + bw ≠ 0 := ne_of_gt htot
  have hsum : sw / (sw + bw) + bw / (sw + bw) = 1 := by
    rw [div_add_div_same, div_self hne]
  simp only [HybridR.hybridInitWeights]
  refine ⟨hsum, ?_⟩
  intro sem bm25 topK r hr
  have h1 : r ∈ sortByScoreDesc (fun r => r.combinedScore)
      (HybridR.weightedCombined (sw / (sw + bw)) (bw / (sw + bw)) sem bm25) :=
    List.mem_of_mem_take hr
  have h2 : r ∈ HybridR.weightedCombined (sw / (sw + bw)) (bw / (sw + bw)) sem bm25 :=
    (mem_sortByScoreDesc _ _ _).mp h1
  simp only [HybridR.weightedCombined, List.mem_map] at h2
  rcases h2 with ⟨q, hq, rfl⟩
  have hsb := scoreMap_lookup_bounds sem q.1
  have hbb := scoreMap_lookup_bounds bm25 q.1
  have hw1 : 0 ≤ sw / (sw + bw) := by positivity
  have hw2 : 0 ≤ bw / (sw + bw) := by positivity
  dsimp only
  constructor
  · nlinarith [hsb.1, hsb.2, hbb.1, hbb.2]
  · nlinarith [hsb.1, hsb.2, hbb.1, hbb.2]

/-- Witness for C9 at constructor weights 0.6/0.4 and the concrete pool
`semList`/`bmList`, whose chunk-`a` fusion entry is bounded. -/
theorem hybrid_weights_sum_one_and_fusion_bounded_witness :
    ((HybridR.hybridInitWeights (6/10) (4/10)).1 +
        (HybridR.hybridInitWeights (6/10) (4/10)).2 = 1) ∧
    (0 ≤ (Examples.whResA (HybridR.hybridInitWeights (6/10) (4/10)).1
          (HybridR.hybridInitWeights (6/10) (4/10)).2).combinedScore ∧
      (Examples.whResA (HybridR.hybridInitWeights (6/10) (4/10)).1
          (HybridR.hybridInitWeights (6/10) (4/10)).2).combinedScore ≤ 1) :=
  have h := hybrid_weights_sum_one_and_fusion_bounded (6/10) (4/10)
    (by norm_num) (by norm_num)
  ⟨h.1, h.2 Examples.semList Examples.bmList 10 _
    (mem_sort_take _ _ 10 _ (by with_unfolding_all decide)
      (by with_unfolding_all decide))⟩

/-! ## Claim C2 — amended -/

theorem allChunksOf_key (results : List (HybridR.HChunk × ℚ)) :
    ∀ p ∈ HybridR.allChunksOf results, p.1 = p.2.chunkId := by
  have hgen : ∀ (rs : List (HybridR.HChunk × ℚ)) (acc : List (String × HybridR.HChunk)),
      (∀ p ∈ acc, p.1 = p.2.chunkId) →
      ∀ p ∈ rs.foldl
        (fun m q =>
          if (alistLookup m q.1.chunkId).isSome then m else m ++ [(q.1.chunkId, q.1)])
        acc, p.1 = p.2.chunkId := by
    intro rs
    induction rs with
    | nil => intro acc hacc p hp; exact hacc p hp
    | cons q rest ih =>
        intro acc hacc p hp
        simp only [List.foldl_cons] at hp
        refine ih _ ?_ p hp
        by_cases hmem : (alistLookup acc q.1.chunkId).isSome
        · simpa [hmem] using hacc
        · intro p2 hp2
          have hp3 : p2 ∈ acc ∨ p2 = (q.1.chunkId, q.1) := by
            simpa [hmem] using hp2
          rcases hp3 with h | h
          · exact hacc p2 h
          · simp [h]
  exact hgen results [] (by intro p hp; cases hp)

theorem scoreMap_lookup_none (results : List (HybridR.HChunk × ℚ)) (cid : String)
    (h : cid ∉ results.map (fun p => p.1.chunkId)) :
    alistLookup (HybridR.scoreMap results) cid = none := by
  rw [alistLookup_eq_none]
  intro hk
  simp only [HybridR.scoreMap] at hk
  have hk2 := dictOf_keys_subset
    (List.zip (results.map (fun p => p.1.chunkId))
      (HybridR.normalizeScores (results.map (fun p => p.2)))) cid hk
  rcases List.mem_map.1 hk2 with ⟨p, hp, hpk⟩
  have hzip := List.of_mem_zip (by rwa [(by cases p; rfl : p = (p.1, p.2))] at hp)
  exact h (hpk ▸ hzip.1)

/-- C2 amended: in `HybridRetriever._weighted_fusion` each retriever's score
list is min-max normalized independently and every fused entry's combined
score equals `semantic_weight * normalized_semantic + bm25_weight *
normalized_bm25`, where a method that did not return the chunk contributes
exactly 0.  (The weights here are the constructor's semantic/bm25 pair —
defaults 0.6/0.4 — not the engine's `{vector, keyword, graph}` map, and the
engine's `_fuse_results` does not implement this formula at all, per the
counterexample.) -/
theorem weighted_fusion_formula (sw bw : ℚ)
    (semanticResults bm25Results : List (HybridR.HChunk × ℚ)) (topK : ℕ)
    (r : HybridR.HResult)
    (hr : r ∈ HybridR.weightedFusion sw bw semanticResults bm25Results topK) :
    r.combinedScore =
      sw * (alistLookup (HybridR.scoreMap semanticResults) r.chunk.chunkId).getD 0 +
        bw * (alistLookup (HybridR.scoreMap bm25Results) r.chunk.chunkId).getD 0 ∧
    (r.chunk.chunkId ∉ semanticResults.map (fun p => p.1.chunkId) →
      (alistLookup (HybridR.scoreMap semanticResults) r.chunk.chunkId).getD 0 = 0) ∧
    (r.chunk.chunkId ∉ bm25Results.map (fun p => p.1.chunkId) →
      (alistLookup (HybridR.scoreMap bm25Results) r.chunk.chunkId).getD 0 = 0) := by
  have h1 : r ∈ sortByScoreDesc (fun r => r.combinedScore)
      (HybridR.weightedCombined sw bw semanticResults bm25Results) :=
    List.mem_of_mem_take hr
  have h2 : r ∈ HybridR.weightedCombined sw bw semanticResults bm25Results :=
    (mem_sortByScoreDesc _ _ _).mp h1
  simp only [HybridR.weightedCombined, List.mem_map] at h2
  rcases h2 with ⟨q, hq, rfl⟩
  have hkey : q.1 = q.2.chunkId := allChunksOf_key _ q hq
  refine ⟨by dsimp only; rw [hkey], ?_, ?_⟩
  · intro hmiss
    dsimp only at hmiss ⊢
    rw [← hkey] at hmiss ⊢
    rw [scoreMap_lookup_none semanticResults q.1 hmiss]
    rfl
  · intro hmiss
    dsimp only at hmiss ⊢
    rw [← hkey] at hmiss ⊢
    rw [scoreMap_lookup_none bm25Results q.1 hmiss]
    rfl

/-- Witness for C2's amended formula at the chunk-`a` entry of the
`semList`/`bmList` fusion with weights 0.6/0.4. -/
theorem weighted_fusion_formula_witness :
    (Examples.whResA (6/10) (4/10)).combinedScore =
      (6/10) * (alistLookup (HybridR.scoreMap Examples.semList)
          (Examples.whResA (6/10) (4/10)).chunk.chunkId).getD 0 +
        (4/10) * (alistLookup (HybridR.scoreMap Examples.bmList)
          (Examples.whResA (6/10) (4/10)).chunk.chunkId).getD 0 :=
  (weighted_fusion_formula (6/10) (4/10) Examples.semList Examples.bmList 10
    (Examples.whResA (6/10) (4/10))
    (mem_sort_take _ _ 10 _ (by with_unfolding_all decide)
      (by with_unfolding_all decide))).1

/-! ## Claim C6 -/

theorem findIdx?_start_add (p : String → Bool) (l : List String) (n : ℕ) :
    List.findIdx? p l n = (List.findIdx? p l 0).map (fun i => i + n) := by
  induction n with
  | zero =>
      cases List.findIdx? p l 0 <;> simp
  | succ n ih =>
      rw [List.findIdx?_succ, ih]
      cases List.findIdx? p l 0 <;> simp [Nat.add_assoc]

theorem alistLookup_enumFrom_map {γ : Type} (key : γ → String) (l : List γ)
    (n : ℕ) (cid : String) :
    alistLookup ((List.enumFrom n l).map (fun p => (key p.2, p.1))) cid =
      ((l.map key).findIdx? (fun s => s = cid)).map (fun i => i + n) := by
  induction l generalizing n with
  | nil => simp [alistLookup]
  | cons x xs ih =>
      rw [List.enumFrom_cons]
      simp only [List.map_cons]
      rw [alistLookup_cons]
      by_cases h : key x = cid
      · simp [List.findIdx?_cons, h]
      · simp only [List.findIdx?_cons]
        have hb : (fun s => decide (s = cid)) (key x) = false := by
          simp [h]
        simp only [List.map_cons] at hb ⊢
        rw [if_neg h]
        simp only [hb, Bool.false_eq_true, if_false]
        rw [ih (n + 1), findIdx?_start_add _ _ 1]
        cases List.findIdx? (fun s => decide (s = cid)) (xs.map key) 0 with
        | none => simp
        | some v => simp only [Option.map_some']; congr 1; omega

theorem rankDict_keys (results : List (HybridR.HChunk × ℚ)) :
    (results.enum.map (fun p => (p.2.1.chunkId, p.1))).map Prod.fst =
      results.map (fun p => p.1.chunkId) := by
  rw [List.map_map]
  have : (Prod.fst ∘ fun p : ℕ × (HybridR.HChunk × ℚ) => (p.2.1.chunkId, p.1)) =
      (fun q : HybridR.HChunk × ℚ => q.1.chunkId) ∘ Prod.snd := rfl
  rw [this, ← List.map_map, List.enum_map_snd]

theorem rankDict_lookup (results : List (HybridR.HChunk × ℚ))
    (hn : (results.map (fun p => p.1.chunkId)).Nodup) (cid : String) :
    alistLookup (HybridR.rankDict results) cid =
      (results.map (fun p => p.1.chunkId)).findIdx? (fun s => s = cid) := by
  have hkeys := rankDict_keys results
  have hnd : ((results.enum.map (fun p => (p.2.1.chunkId, p.1))).map Prod.fst).Nodup := by
    rw [hkeys]; exact hn
  rw [HybridR.rankDict, dictOf_eq_self _ hnd]
  have henum : results.enum = List.enumFrom 0 results := rfl
  rw [henum, alistLookup_enumFrom_map (fun q : HybridR.HChunk × ℚ => q.1.chunkId)]
  cases (results.map (fun p => p.1.chunkId)).findIdx? (fun s => s = cid) <;> simp

theorem rrfAllChunks_key (semanticResults bm25Results : List (HybridR.HChunk × ℚ)) :
    ∀ p ∈ HybridR.rrfAllChunks semanticResults bm25Results, p.1 = p.2.1.chunkId := by
  have hstep1 : ∀ (rs : List (HybridR.HChunk × ℚ))
      (acc : List (String × (HybridR.HChunk × ℚ × ℚ))),
      (∀ p ∈ acc, p.1 = p.2.1.chunkId) →
      ∀ p ∈ rs.foldl (fun m q => alistInsert m q.1.chunkId (q.1, q.2, (0 : ℚ))) acc,
        p.1 = p.2.1.chunkId := by
    intro rs
    induction rs with
    | nil => intro acc hacc p hp; exact hacc p hp
    | cons q rest ih =>
        intro acc hacc p hp
        simp only [List.foldl_cons] at hp
        refine ih _ ?_ p hp
        intro p2 hp2
        rcases alistInsert_mem _ _ _ _ hp2 with h | h
        · simp [h]
        · exact hacc p2 h
  have hstep2 : ∀ (rs : List (HybridR.HChunk × ℚ))
      (acc : List (String × (HybridR.HChunk × ℚ × ℚ))),
      (∀ p ∈ acc, p.1 = p.2.1.chunkId) →
      ∀ p ∈ rs.foldl
        (fun m q =>
          match alistLookup m q.1.chunkId with
          | some (c, ss, _) => alistInsert m q.1.chunkId (c, ss, q.2)
          | none => alistInsert m q.1.chunkId (q.1, (0 : ℚ), q.2))
        acc, p.1 = p.2.1.chunkId := by
    intro rs
    induction rs with
    | nil => intro acc hacc p hp; exact hacc p hp
    | cons q rest ih =>
        intro acc hacc p hp
        simp only [List.foldl_cons] at hp
        refine ih _ ?_ p hp
        intro p2 hp2
        cases hl : alistLookup acc q.1.chunkId with
        | some t =>
            obtain ⟨c, ss, bs⟩ := t
            rw [hl] at hp2
            rcases alistInsert_mem _ _ _ _ hp2 with h | h
            · have hc : q.1.chunkId = c.chunkId := hacc _ (alistLookup_mem _ _ _ hl)
              simp [h, hc]
            · exact hacc p2 h
        | none =>
            rw [hl] at hp2
            rcases alistInsert_mem _ _ _ _ hp2 with h | h
            · simp [h]
            · exact hacc p2 h
  intro p hp
  exact hstep2 bm25Results _ (hstep1 semanticResults [] (by intro p hp; cases hp)) p hp

/-- C6: under reciprocal rank fusion with `rrf_k = 60`, every fused entry's
score is exactly the sum, over the two retriever lists, of
`1/(60 + rank + 1)` at the chunk's 0-indexed rank in that list, a list not
containing the chunk contributing 0; the score is stored in both
`combined_score` and `rank_fusion_score`. -/
theorem rrf_contribution (semanticResults bm25Results : List (HybridR.HChunk × ℚ))
    (topK : ℕ)
    (hs : (semanticResults.map (fun p => p.1.chunkId)).Nodup)
    (hb : (bm25Results.map (fun p => p.1.chunkId)).Nodup)
    (r : HybridR.HResult)
    (hr : r ∈ HybridR.rrfFusion 60 semanticResults bm25Results topK) :
    r.combinedScore =
      (match (semanticResults.map (fun p => p.1.chunkId)).findIdx?
          (fun s => s = r.chunk.chunkId) with
       | some rank => 1 / (60 + (rank : ℚ) + 1)
       | none => 0) +
      (match (bm25Results.map (fun p => p.1.chunkId)).findIdx?
          (fun s => s = r.chunk.chunkId) with
       | some rank => 1 / (60 + (rank : ℚ) + 1)
       | none => 0) ∧
    r.rankFusionScore = r.combinedScore := by
  have h1 : r ∈ sortByScoreDesc (fun r => r.combinedScore)
      (HybridR.rrfScored 60 semanticResults bm25Results) :=
    List.mem_of_mem_take hr
  have h2 : r ∈ HybridR.rrfScored 60 semanticResults bm25Results :=
    (mem_sortByScoreDesc _ _ _).mp h1
  simp only [HybridR.rrfScored, List.mem_map] at h2
  rcases h2 with ⟨q, hq, rfl⟩
  have hkey : q.1 = q.2.1.chunkId := rrfAllChunks_key _ _ q hq
  dsimp only
  rw [rankDict_lookup semanticResults hs, rankDict_lookup bm25Results hb, hkey]
  refine ⟨?_, rfl⟩
  cases (semanticResults.map (fun p => p.1.chunkId)).findIdx?
      (fun s => s = q.2.1.chunkId) with
  | none =>
      cases (bm25Results.map (fun p => p.1.chunkId)).findIdx?
          (fun s => s = q.2.1.chunkId) with
      | none => norm_num
      | some rk => norm_num
  | some rk =>
      cases (bm25Results.map (fun p => p.1.chunkId)).findIdx?
          (fun s => s = q.2.1.chunkId) with
      | none => norm_num
      | some rk2 => norm_num

set_option maxRecDepth 8000 in
/-- Witness for C6: the chunk-`b` entry of the `semList`/`bmList` fusion
(semantic rank 1, BM25 rank 0) scores `1/62 + 1/61`. -/
theorem rrf_contribution_witness :
    Examples.rrfResB.combinedScore =
      (match (Examples.semList.map (fun p => p.1.chunkId)).findIdx?
          (fun s => s = Examples.rrfResB.chunk.chunkId) with
       | some rank => 1 / (60 + (rank : ℚ) + 1)
       | none => 0) +
      (match (Examples.bmList.map (fun p => p.1.chunkId)).findIdx?
          (fun s => s = Examples.rrfResB.chunk.chunkId) with
       | some rank => 1 / (60 + (rank : ℚ) + 1)
       | none => 0) :=
  (rrf_contribution Examples.semList Examples.bmList 10
    (by with_unfolding_all decide) (by with_unfolding_all decide)
    Examples.rrfResB
    (mem_sort_take _ _ 10 _
      (by
        norm_num [HybridR.rrfScored, HybridR.rrfAllChunks, HybridR.rankDict,
          Examples.semList, Examples.bmList, Examples.rrfResB, Examples.hChunk,
          dictOf, alistInsert, alistLookup_cons, alistLookup_nil,
          List.enum, List.enumFrom,
          (show ("a" : String) ≠ "b" from by decide),
          (show ("a" : String) ≠ "c" from by decide),
          (show ("b" : String) ≠ "c" from by decide),
          (show ("b" : String) ≠ "a" from by decide),
          (show ("c" : String) ≠ "a" from by decide),
          (show ("c" : String) ≠ "b" from by decide)])
      (by
        norm_num [HybridR.rrfScored, HybridR.rrfAllChunks, HybridR.rankDict,
          Examples.semList, Examples.bmList, Examples.hChunk,
          dictOf, alistInsert, alistLookup_cons, alistLookup_nil,
          List.enum, List.enumFrom,
          (show ("a" : String) ≠ "b" from by decide),
          (show ("a" : String) ≠ "c" from by decide),
          (show ("b" : String) ≠ "c" from by decide),
          (show ("b" : String) ≠ "a" from by decide),
          (show ("c" : String) ≠ "a" from by decide),
          (show ("c" : String) ≠ "b" from by decide)]))).1

/-! ## Claim C8 -/

theorem nodup_keys_pair_eq {α : Type} {β : Type} [DecidableEq α]
    (m : List (α × β)) (hnd : (m.map Prod.fst).Nodup) (p q : α × β)
    (hp : p ∈ m) (hq : q ∈ m) (hk : p.1 = q.1) : p = q := by
  induction m with
  | nil => cases hp
  | cons x rest ih =>
      simp only [List.map_cons, List.nodup_cons] at hnd
      rcases List.mem_cons.1 hp with h1 | h1 <;> rcases List.mem_cons.1 hq with h2 | h2
      · rw [h1, h2]
      · exfalso
        exact hnd.1 (List.mem_map.2 ⟨q, h2, by rw [← hk, h1]⟩)
      · exfalso
        exact hnd.1 (List.mem_map.2 ⟨p, h1, by rw [hk, h2]⟩)
      · exact ih hnd.2 h1 h2

theorem alistInsert_mem_nodup {α : Type} {β : Type} [DecidableEq α]
    (m : List (α × β)) (hnd : (m.map Prod.fst).Nodup) (k : α) (v : β) (p : α × β)
    (hp : p ∈ alistInsert m k v) : p = (k, v) ∨ (p ∈ m ∧ p.1 ≠ k) := by
  induction m with
  | nil =>
      simp [alistInsert] at hp
      exact Or.inl hp
  | cons x rest ih =>
      simp only [List.map_cons, List.nodup_cons] at hnd
      by_cases hx : x.1 = k
      · simp only [alistInsert, if_pos hx, List.mem_cons] at hp
        rcases hp with h | h
        · exact Or.inl h
        · refine Or.inr ⟨List.mem_cons_of_mem _ h, fun hpk => ?_⟩
          exact hnd.1 (List.mem_map.2 ⟨p, h, by rw [hpk, hx]⟩)
      · simp only [alistInsert, if_neg hx, List.mem_cons] at hp
        rcases hp with h | h
        · exact Or.inr ⟨by simp [h], by rw [h]; exact hx⟩
        · rcases ih hnd.2 h with h1 | h1
          · exact Or.inl h1
          · exact Or.inr ⟨List.mem_cons_of_mem _ h1.1, h1.2⟩

theorem alistLookup_isSome_iff {α : Type} {β : Type} [DecidableEq α]
    (m : List (α × β)) (k : α) :
    (alistLookup m k).isSome ↔ k ∈ m.map Prod.fst := by
  rcases h : alistLookup m k with _ | v
  · simp only [Option.isSome_none, Bool.false_eq_true, false_iff]
    exact (alistLookup_eq_none m k).1 h
  · simp only [Option.isSome_some, true_iff]
    exact List.mem_map.2 ⟨(k, v), alistLookup_mem m k v h, rfl⟩

/-- The running invariant of the `unique_results` dict loop of
`_fuse_results`: keys are distinct, every stored entry is one of the
processed entries keyed by its own chunk id, its score is maximal among
processed entries with that id, and every processed entry's id has a key. -/
theorem dedup_fold_inv (todo : List RagCore.RetrievalResult) :
    ∀ (processed : List RagCore.RetrievalResult)
      (m : List (String × RagCore.RetrievalResult)),
      ((m.map Prod.fst).Nodup ∧
        (∀ p ∈ m, p.2.chunk.id = p.1 ∧ p.2 ∈ processed ∧
          ∀ a ∈ processed, a.chunk.id = p.1 → a.score ≤ p.2.score) ∧
        (∀ a ∈ processed, a.chunk.id ∈ m.map Prod.fst)) →
      (((todo.foldl RagCore.dedupStep m).map Prod.fst).Nodup ∧
        (∀ p ∈ todo.foldl RagCore.dedupStep m,
          p.2.chunk.id = p.1 ∧ p.2 ∈ processed ++ todo ∧
          ∀ a ∈ processed ++ todo, a.chunk.id = p.1 → a.score ≤ p.2.score) ∧
        (∀ a ∈ processed ++ todo,
          a.chunk.id ∈ (todo.foldl RagCore.dedupStep m).map Prod.fst)) := by
  induction todo with
  | nil =>
      intro processed m h
      simpa using h
  | cons r rest ih =>
      intro processed m h
      obtain ⟨hnd, hpairs, hcover⟩ := h
      simp only [List.foldl_cons]
      have hmain := ih (processed ++ [r]) (RagCore.dedupStep m r) ?_
      · refine ⟨hmain.1, ?_, ?_⟩
        · intro p hp
          have := hmain.2.1 p hp
          simpa using this
        · intro a ha
          refine hmain.2.2 a ?_
          simpa using ha
      · cases hl : alistLookup m r.chunk.id with
        | none =>
            simp only [RagCore.dedupStep, hl]
            have hfresh : r.chunk.id ∉ m.map Prod.fst := (alistLookup_eq_none m _).1 hl
            refine ⟨?_, ?_, ?_⟩
            · rw [List.map_append]
              simp only [List.map_cons, List.map_nil]
              rw [List.nodup_append]
              refine ⟨hnd, List.nodup_singleton _, ?_⟩
              intro a ha hb
              simp only [List.mem_singleton] at hb
              exact hfresh (hb ▸ ha)
            · intro p hp
              rcases List.mem_append.1 hp with h1 | h1
              · obtain ⟨hid, hmem, hmax⟩ := hpairs p h1
                refine ⟨hid, List.mem_append_left _ hmem, ?_⟩
                intro a ha hak
                rcases List.mem_append.1 ha with h2 | h2
                · exact hmax a h2 hak
                · simp only [List.mem_singleton] at h2
                  subst h2
                  exfalso
                  have hp1 : p.1 ∈ m.map Prod.fst := List.mem_map.2 ⟨p, h1, rfl⟩
                  rw [← hak] at hp1
                  exact hfresh hp1
              · simp only [List.mem_singleton] at h1
                subst h1
                refine ⟨rfl, List.mem_append_right _ (by simp), ?_⟩
                intro a ha hak
                rcases List.mem_append.1 ha with h2 | h2
                · have hak2 : a.chunk.id = r.chunk.id := hak
                  exact absurd (hak2 ▸ hcover a h2) hfresh
                · simp only [List.mem_singleton] at h2
                  subst h2
                  exact le_refl _
            · intro a ha
              rcases List.mem_append.1 ha with h1 | h1
              · simpa using Or.inl (hcover a h1)
              · simp only [List.mem_singleton] at h1
                subst h1
                simp
        | some prev =>
            have hprevmem : (r.chunk.id, prev) ∈ m := alistLookup_mem m _ _ hl
            have hkeymem : r.chunk.id ∈ m.map Prod.fst :=
              List.mem_map.2 ⟨(r.chunk.id, prev), hprevmem, rfl⟩
            obtain ⟨hprevid, hprevproc, hprevmax⟩ := hpairs _ hprevmem
            by_cases hsc : prev.score < r.score
            · simp only [RagCore.dedupStep, hl, if_pos hsc]
              have hkeys : (alistInsert m r.chunk.id r).map Prod.fst = m.map Prod.fst := by
                rw [alistInsert_keys, if_pos hkeymem]
              refine ⟨by rw [hkeys]; exact hnd, ?_, ?_⟩
              · intro p hp
                rcases alistInsert_mem_nodup m hnd _ _ p hp with h1 | h1
                · subst h1
                  refine ⟨rfl, List.mem_append_right _ (by simp), ?_⟩
                  intro a ha hak
                  rcases List.mem_append.1 ha with h2 | h2
                  · exact le_trans (hprevmax a h2 hak) (le_of_lt hsc)
                  · simp only [List.mem_singleton] at h2
                    subst h2
                    exact le_refl _
                · obtain ⟨hpm, hpk⟩ := h1
                  obtain ⟨hid, hmem, hmax⟩ := hpairs p hpm
                  refine ⟨hid, List.mem_append_left _ hmem, ?_⟩
                  intro a ha hak
                  rcases List.mem_append.1 ha with h2 | h2
                  · exact hmax a h2 hak
                  · simp only [List.mem_singleton] at h2
                    subst h2
                    exact absurd hak.symm hpk
              · intro a ha
                rw [hkeys]
                rcases List.mem_append.1 ha with h1 | h1
                · exact hcover a h1
                · simp only [List.mem_singleton] at h1
                  subst h1
                  exact hkeymem
            · simp only [RagCore.dedupStep, hl, if_neg hsc]
              refine ⟨hnd, ?_, ?_⟩
              · intro p hp
                obtain ⟨hid, hmem, hmax⟩ := hpairs p hp
                refine ⟨hid, List.mem_append_left _ hmem, ?_⟩
                intro a ha hak
                rcases List.mem_append.1 ha with h2 | h2
                · exact hmax a h2 hak
                · simp only [List.mem_singleton] at h2
                  rw [h2] at hak ⊢
                  have hpeq : p = (r.chunk.id, prev) :=
                    nodup_keys_pair_eq m hnd p (r.chunk.id, prev) hp hprevmem hak.symm
                  rw [hpeq]
                  exact le_of_not_lt hsc
              · intro a ha
                rcases List.mem_append.1 ha with h1 | h1
                · exact hcover a h1
                · simp only [List.mem_singleton] at h1
                  subst h1
                  exact hkeymem

/-- C8: for any fused result set, no two entries share the same `chunk.id`,
and each kept entry is one of the weighted candidates with the highest score
among all weighted candidates carrying its chunk id. -/
theorem fuse_results_dedup_keeps_max (weights : List (String × ℚ))
    (retrievalResults : List (String × List RagCore.RetrievalResult)) (topK : ℕ) :
    ((RagCore.fuseResults weights retrievalResults topK).map
        (fun r => r.chunk.id)).Nodup ∧
    ∀ r ∈ RagCore.fuseResults weights retrievalResults topK,
      r ∈ RagCore.applyRetrievalWeights weights retrievalResults ∧
      ∀ a ∈ RagCore.applyRetrievalWeights weights retrievalResults,
        a.chunk.id = r.chunk.id → a.score ≤ r.score := by
  have hinv := dedup_fold_inv (RagCore.applyRetrievalWeights weights retrievalResults)
    [] []
    (by
      refine ⟨by simp, ?_, ?_⟩
      · intro p hp; cases hp
      · intro a ha; cases ha)
  obtain ⟨hnd, hpairs, _⟩ := hinv
  have hvals_ids :
      (RagCore.dedupByChunkId (RagCore.applyRetrievalWeights weights retrievalResults)).map
          (fun r => r.chunk.id) =
        ((RagCore.applyRetrievalWeights weights retrievalResults).foldl
          RagCore.dedupStep []).map Prod.fst := by
    rw [RagCore.dedupByChunkId, List.map_map]
    refine List.map_congr_left ?_
    intro p hp
    exact (hpairs p hp).1
  constructor
  · have hperm := sortByScoreDesc_perm (fun r : RagCore.RetrievalResult => r.score)
      (RagCore.dedupByChunkId (RagCore.applyRetrievalWeights weights retrievalResults))
    have h1 : ((sortByScoreDesc (fun r : RagCore.RetrievalResult => r.score)
        (RagCore.dedupByChunkId
          (RagCore.applyRetrievalWeights weights retrievalResults))).map
        (fun r => r.chunk.id)).Nodup := by
      refine ((hperm.map (fun r => r.chunk.id)).nodup_iff).2 ?_
      rw [hvals_ids]
      exact hnd
    have hmapeq :
        (RagCore.fuseResults weights retrievalResults topK).map
            (fun r => r.chunk.id) =
          ((sortByScoreDesc (fun r : RagCore.RetrievalResult => r.score)
            (RagCore.dedupByChunkId
              (RagCore.applyRetrievalWeights weights retrievalResults))).map
            (fun r => r.chunk.id)).take (topK * 3) := by
      rw [RagCore.fuseResults, List.map_take]
    rw [hmapeq]
    exact (List.take_sublist _ _).nodup h1
  · intro r hr
    have h2 : r ∈ RagCore.dedupByChunkId
        (RagCore.applyRetrievalWeights weights retrievalResults) :=
      (mem_sortByScoreDesc _ _ _).mp (List.mem_of_mem_take hr)
    rw [RagCore.dedupByChunkId] at h2
    rcases List.mem_map.1 h2 with ⟨p, hp, rfl⟩
    obtain ⟨hid, hmem, hmax⟩ := hpairs p hp
    refine ⟨by simpa using hmem, ?_⟩
    intro a ha hak
    exact hmax a (by simpa using ha) (hak.trans hid)

/-- Witness for C8 on the two-retriever pool where both entries carry chunk
`a`: the kept entry is the weighted vector hit and it dominates the weighted
keyword hit. -/
theorem fuse_results_dedup_keeps_max_witness :
    Examples.weightedHitA ∈
      RagCore.applyRetrievalWeights RagCore.defaultRetrievalWeights Examples.bothHitA ∧
    Examples.weightedKeyHitA.score ≤ Examples.weightedHitA.score :=
  have h := fuse_results_dedup_keeps_max RagCore.defaultRetrievalWeights
    Examples.bothHitA 10
  have h2 := h.2 Examples.weightedHitA (by with_unfolding_all decide)
  ⟨h2.1, h2.2 Examples.weightedKeyHitA (by with_unfolding_all decide)
    (by with_unfolding_all decide)⟩

/-! ## Claim C4 — amended -/

theorem applyFilters_no_filters (r : RagCore.RetrievalResult) :
    RagCore.applyFilters r {} = true := rfl

theorem enum_stamp_ranks (l : List RagCore.RetrievalResult)
    (f : ℕ × RagCore.RetrievalResult → RagCore.RetrievalResult)
    (hf : ∀ p, (f p).rank = p.1 + 1) :
    (l.enum.map f).map (fun r => r.rank) = List.range' 1 l.length := by
  rw [List.map_map]
  rw [show ((fun r : RagCore.RetrievalResult => r.rank) ∘ f) =
      fun p : ℕ × RagCore.RetrievalResult => p.1 + 1 from funext hf]
  rw [show (fun p : ℕ × RagCore.RetrievalResult => p.1 + 1) =
      (fun i => i + 1) ∘ Prod.fst from rfl]
  rw [← List.map_map, List.enum_map_fst, List.range'_eq_map_range]
  exact List.map_congr_left (fun a _ => Nat.add_comm a 1)

/-- C4 amended: `_post_process_results` stamps `rank` with the pre-filter
enumeration position, so the returned ranks are dense 1..N exactly when the
query carries no filters (a filtered-out candidate leaves a gap, per the
counterexample); among the rerankers, the diversity reranker does reassign
`rank` 1..N over its output, while the semantic reranker leaves `rank`
untouched. -/
theorem postprocess_dense_ranks_no_filters_and_diversity_ranks :
    (∀ (results : List RagCore.RetrievalResult) (q : RagCore.RAGQuery),
      q.filters = {} →
      (RagCore.postProcessResults results q).map (fun r => r.rank) =
        List.range' 1 results.length) ∧
    (∀ (threshold : ℚ) (maxSameSource : ℕ)
      (results : List RagCore.RetrievalResult),
      (Rerank.diversityRerank threshold maxSameSource results).map
          (fun r => r.rank) =
        List.range' 1
          (Rerank.diversityRerank threshold maxSameSource results).length) := by
  constructor
  · intro results q hq
    rw [RagCore.postProcessResults, hq]
    rw [List.filter_eq_self.2 (fun a _ => applyFilters_no_filters a)]
    exact enum_stamp_ranks results _ (fun p => rfl)
  · intro threshold maxSameSource results
    cases results with
    | nil => simp [Rerank.diversityRerank]
    | cons best remaining =>
        rw [Rerank.diversityRerank]
        rw [List.length_map, List.enum_length]
        exact enum_stamp_ranks _ _ (fun p => rfl)

/-- Witness for C4's amended statement: dense ranks on a filterless query
over two candidates, and 1..N rank reassignment by the diversity reranker on
the six-candidate pool. -/
theorem postprocess_dense_ranks_no_filters_and_diversity_ranks_witness :
    (RagCore.postProcessResults [Examples.lowQualityRes, Examples.highQualityRes]
        Examples.noFilterQuery).map (fun r => r.rank) = List.range' 1 2 ∧
    (Rerank.diversityRerank (4/5) 2 Examples.divResults).map (fun r => r.rank) =
      List.range' 1 (Rerank.diversityRerank (4/5) 2 Examples.divResults).length :=
  ⟨postprocess_dense_ranks_no_filters_and_diversity_ranks.1
      [Examples.lowQualityRes, Examples.highQualityRes] Examples.noFilterQuery rfl,
    postprocess_dense_ranks_no_filters_and_diversity_ranks.2 (4/5) 2
      Examples.divResults⟩

/-! ## Claim C1 — amended -/

theorem applyRetrievalWeights_all_empty (weights : List (String × ℚ))
    (retrievalResults : List (String × List RagCore.RetrievalResult))
    (h : ∀ pair ∈ retrievalResults, pair.2 = []) :
    RagCore.applyRetrievalWeights weights retrievalResults = [] := by
  have hgen : ∀ (rr : List (String × List RagCore.RetrievalResult))
      (acc : List RagCore.RetrievalResult), (∀ pair ∈ rr, pair.2 = []) →
      rr.foldl
        (fun allResults p =>
          let w := (alistLookup weights p.1).getD 1
          allResults ++ p.2.map (fun r =>
            { r with score := r.score * w,
                     retrievalMethod := r.retrievalMethod ++ "(" ++ p.1 ++ ")" }))
        acc = acc := by
    intro rr
    induction rr with
    | nil => intro acc _; rfl
    | cons p rest ih =>
        intro acc hall
        simp only [List.foldl_cons]
        rw [hall p (by simp), List.map_nil, List.append_nil]
        exact ih acc (fun pair hp => hall pair (List.mem_cons_of_mem _ hp))
  exact hgen retrievalResults [] h

theorem rerankResults_empty (rerankers : List RagCore.Reranker) (query : String)
    (h : ∀ rk ∈ rerankers, ∀ out, rk query [] = Except.ok out → out = []) :
    RagCore.rerankResults rerankers query [] = [] := by
  induction rerankers with
  | nil => rfl
  | cons rk rest ih =>
      rw [RagCore.rerankResults, List.foldl_cons]
      cases hrk : rk query [] with
      | ok out =>
          have : out = [] := h rk (by simp) out hrk
          subst this
          exact ih (fun rk2 h2 => h rk2 (List.mem_cons_of_mem _ h2))
      | error e =>
          exact ih (fun rk2 h2 => h rk2 (List.mem_cons_of_mem _ h2))

/-- C1 amended: a failed retriever is isolated — recorded as an empty result
list, which contributes nothing to fusion (dropping its entry changes
nothing), so the query continues on the remaining retrievers' results; but
when every dispatched retriever fails there is no `NoCandidatesError` (the
code has none): `retrieve` returns a successful response with an empty
result list. -/
theorem parallel_isolation_and_allfail_empty_success :
    (∀ (weights : List (String × ℚ))
      (rr1 rr2 : List (String × List RagCore.RetrievalResult))
      (n : String) (topK : ℕ),
      RagCore.fuseResults weights (rr1 ++ (n, []) :: rr2) topK =
        RagCore.fuseResults weights (rr1 ++ rr2) topK) ∧
    (∀ (eng : RagCore.Engine) (q : RagCore.RAGQuery)
      (chunks : List RagCore.DocumentChunk),
      (∀ p ∈ RagCore.activeRetrievers eng (RagCore.selectRetrievalMode eng q),
        ∃ err, p.2 (RagCore.enhanceQuery q) chunks = Except.error err) →
      (∀ rk ∈ eng.rerankers, ∀ out, rk q.query [] = Except.ok out → out = []) →
      (RagCore.engineRetrieve eng q chunks).map (fun resp => resp.results) =
        Except.ok []) := by
  constructor
  · intro weights rr1 rr2 n topK
    have happ : RagCore.applyRetrievalWeights weights (rr1 ++ (n, []) :: rr2) =
        RagCore.applyRetrievalWeights weights (rr1 ++ rr2) := by
      rw [RagCore.applyRetrievalWeights, RagCore.applyRetrievalWeights,
        List.foldl_append, List.foldl_append, List.foldl_cons]
      simp
    rw [RagCore.fuseResults, RagCore.fuseResults, happ]
  · intro eng q chunks hall hrk
    have hpr : RagCore.parallelRetrieve eng (RagCore.enhanceQuery q) chunks
        (RagCore.selectRetrievalMode eng q) =
        (RagCore.activeRetrievers eng (RagCore.selectRetrievalMode eng q)).map
          (fun p => (p.1, ([] : List RagCore.RetrievalResult))) := by
      rw [RagCore.parallelRetrieve]
      refine List.map_congr_left ?_
      intro p hp
      rcases hall p hp with ⟨err, herr⟩
      rw [herr]
    have hempty : ∀ pair ∈ (RagCore.activeRetrievers eng
        (RagCore.selectRetrievalMode eng q)).map
          (fun p => (p.1, ([] : List RagCore.RetrievalResult))), pair.2 = [] := by
      intro pair hp
      rcases List.mem_map.1 hp with ⟨p, _, rfl⟩
      rfl
    have hfuse : RagCore.fuseResults eng.retrievalWeights
        ((RagCore.activeRetrievers eng (RagCore.selectRetrievalMode eng q)).map
          (fun p => (p.1, ([] : List RagCore.RetrievalResult)))) q.topK = [] := by
      rw [RagCore.fuseResults,
        applyRetrievalWeights_all_empty eng.retrievalWeights _ hempty]
      simp [RagCore.dedupByChunkId, sortByScoreDesc]
    rw [RagCore.engineRetrieve]
    simp only [hpr, hfuse]
    have hrrk : RagCore.rerankResults eng.rerankers q.query [] = [] :=
      rerankResults_empty eng.rerankers q.query hrk
    cases hen : (q.enableReranking && !eng.rerankers.isEmpty) with
    | true => simp [hen, hrrk, RagCore.postProcessResults, Except.map]
    | false => simp [hen, RagCore.postProcessResults, Except.map]

/-- Witness for C1's amended statement: the three-retriever engine whose
vector, keyword and graph retrievers all raise returns an empty successful
response on a `HYBRID_ALL` query. -/
theorem parallel_isolation_and_allfail_empty_success_witness :
    (RagCore.engineRetrieve Examples.failEngine Examples.allModeQuery
        [Examples.poolChunk]).map (fun resp => resp.results) = Except.ok [] :=
  parallel_isolation_and_allfail_empty_success.2 Examples.failEngine
    Examples.allModeQuery [Examples.poolChunk]
    (by
      intro p hp
      have hp2 : p = ("vector", Examples.failRetriever) ∨
          p = ("keyword", Examples.failRetriever) ∨
          p = ("graph", Examples.failRetriever) := by
        simpa [RagCore.activeRetrievers, RagCore.selectRetrievalMode,
          Examples.failEngine, Examples.allModeQuery, alistLookup_cons,
          alistLookup_nil] using hp
      rcases hp2 with h | h | h <;> subst h <;>
        exact ⟨"connection refused", rfl⟩)
    (by intro rk hmem; cases hmem)

/-! ## Claim C5 — amended -/

theorem buildEntities_eq_foldl_flat (extract : String → List Graph.RawEntity)
    (es : List Graph.Entity) (chunks : List String) :
    Graph.buildEntities extract es chunks =
      (chunks.flatMap extract).foldl Graph.mergeRaw es := by
  induction chunks generalizing es with
  | nil => rfl
  | cons c cs ih =>
      rw [Graph.buildEntities, List.foldl_cons, List.flatMap_cons, List.foldl_append]
      exact ih ((extract c).foldl Graph.mergeRaw es)

theorem updateFirstMatch_idname (es : List Graph.Entity) (e : Graph.RawEntity) :
    (Graph.updateFirstMatch es e).map (fun x => (x.id, x.name)) =
      es.map (fun x => (x.id, x.name)) := by
  induction es with
  | nil => rfl
  | cons y ys ih =>
      by_cases h : Graph.entityMatches y e
      · simp [Graph.updateFirstMatch, if_pos h]
      · simp only [Graph.updateFirstMatch, if_neg h, List.map_cons, ih]

theorem exists_match_updateFirstMatch (es : List Graph.Entity)
    (e2 e : Graph.RawEntity) (h : ∃ x ∈ es, Graph.entityMatches x e) :
    ∃ x ∈ Graph.updateFirstMatch es e2, Graph.entityMatches x e := by
  induction es with
  | nil => rcases h with ⟨x, hx, _⟩; cases hx
  | cons y ys ih =>
      rcases h with ⟨x, hx, hm⟩
      by_cases hc : Graph.entityMatches y e2
      · rcases List.mem_cons.1 hx with h1 | h1
        · subst h1
          have hmem : ({ x with mentions := x.mentions ++ e2.mentions, frequency := x.frequency + 1 } : Graph.Entity) ∈ Graph.updateFirstMatch (x :: ys) e2 := by
            simp [Graph.updateFirstMatch, if_pos hc]
          exact ⟨_, hmem, hm⟩
        · have hmem : x ∈ Graph.updateFirstMatch (y :: ys) e2 := by
            simp [Graph.updateFirstMatch, if_pos hc, h1]
          exact ⟨x, hmem, hm⟩
      · rcases List.mem_cons.1 hx with h1 | h1
        · subst h1
          have hmem : x ∈ Graph.updateFirstMatch (x :: ys) e2 := by
            simp [Graph.updateFirstMatch, if_neg hc]
          exact ⟨x, hmem, hm⟩
        · rcases ih ⟨x, h1, hm⟩ with ⟨x2, hx2, hm2⟩
          have hmem : x2 ∈ Graph.updateFirstMatch (y :: ys) e2 := by
            simp [Graph.updateFirstMatch, if_neg hc, hx2]
          exact ⟨x2, hmem, hm2⟩

theorem exists_match_mergeRaw (es : List Graph.Entity) (e' e : Graph.RawEntity)
    (h : ∃ x ∈ es, Graph.entityMatches x e) :
    ∃ x ∈ Graph.mergeRaw es e', Graph.entityMatches x e := by
  rw [Graph.mergeRaw]
  by_cases hfind : ((es.find? (fun x => decide (Graph.entityMatches x e'))).isSome)
  · rw [if_pos hfind]
    exact exists_match_updateFirstMatch es e' e h
  · rw [if_neg hfind]
    rcases h with ⟨x, hx, hm⟩
    exact ⟨x, List.mem_append_left _ hx, hm⟩

theorem mergeRaw_self_matched (es : List Graph.Entity) (e : Graph.RawEntity) :
    ∃ x ∈ Graph.mergeRaw es e, Graph.entityMatches x e := by
  rw [Graph.mergeRaw]
  by_cases hfind : ((es.find? (fun x => decide (Graph.entityMatches x e))).isSome)
  · rw [if_pos hfind]
    rcases List.find?_isSome.1 hfind with ⟨x, hx, hdec⟩
    exact exists_match_updateFirstMatch es e e ⟨x, hx, of_decide_eq_true hdec⟩
  · rw [if_neg hfind]
    have hmem : ({ id := es.length, name := e.name, entityType := e.entityType, mentions := e.mentions, frequency := 1 } : Graph.Entity) ∈ es ++ [({ id := es.length, name := e.name, entityType := e.entityType, mentions := e.mentions, frequency := 1 } : Graph.Entity)] := by
      simp
    exact ⟨_, hmem, Or.inl rfl⟩

theorem fold_preserves_matched (raws : List Graph.RawEntity)
    (es : List Graph.Entity) (e : Graph.RawEntity)
    (h : ∃ x ∈ es, Graph.entityMatches x e) :
    ∃ x ∈ raws.foldl Graph.mergeRaw es, Graph.entityMatches x e := by
  induction raws generalizing es with
  | nil => exact h
  | cons r rest ih =>
      rw [List.foldl_cons]
      exact ih _ (exists_match_mergeRaw es r e h)

theorem matched_after_fold (raws : List Graph.RawEntity)
    (es : List Graph.Entity) (e : Graph.RawEntity) (he : e ∈ raws) :
    ∃ x ∈ raws.foldl Graph.mergeRaw es, Graph.entityMatches x e := by
  induction raws generalizing es with
  | nil => cases he
  | cons r rest ih =>
      rw [List.foldl_cons]
      rcases List.mem_cons.1 he with h1 | h1
      · subst h1
        exact fold_preserves_matched rest _ e (mergeRaw_self_matched es e)
      · exact ih (Graph.mergeRaw es r) h1

theorem fold_matched_idnames (raws : List Graph.RawEntity)
    (es : List Graph.Entity)
    (h : ∀ e ∈ raws, ∃ x ∈ es, Graph.entityMatches x e) :
    (raws.foldl Graph.mergeRaw es).map (fun x => (x.id, x.name)) =
      es.map (fun x => (x.id, x.name)) := by
  induction raws generalizing es with
  | nil => rfl
  | cons r rest ih =>
      rw [List.foldl_cons]
      have hr := h r (by simp)
      have hfind : ((es.find? (fun x => decide (Graph.entityMatches x r))).isSome) := by
        rcases hr with ⟨x, hx, hm⟩
        exact List.find?_isSome.2 ⟨x, hx, decide_eq_true hm⟩
      have hmerge : Graph.mergeRaw es r = Graph.updateFirstMatch es r := by
        rw [Graph.mergeRaw, if_pos hfind]
      rw [hmerge]
      rw [ih (Graph.updateFirstMatch es r) ?_]
      · exact updateFirstMatch_idname es r
      · intro e he
        exact exists_match_updateFirstMatch es r e (h e (List.mem_cons_of_mem _ he))

/-- C5 amended: running the entity-merge pass twice over the same chunk set
yields an entity set identical to one run by id and name — every re-extracted
entity merges into an already-present match, so no entity is added or renamed
— but not by frequency, which the second run increments (doubling it in the
counterexample). -/
theorem entity_merge_preserves_ids_and_names
    (extract : String → List Graph.RawEntity) (chunks : List String) :
    (Graph.buildEntities extract (Graph.buildEntities extract [] chunks)
        chunks).map (fun x => (x.id, x.name)) =
      (Graph.buildEntities extract [] chunks).map (fun x => (x.id, x.name)) := by
  rw [buildEntities_eq_foldl_flat, buildEntities_eq_foldl_flat]
  exact fold_matched_idnames (chunks.flatMap extract) _
    (fun e he => matched_after_fold (chunks.flatMap extract) [] e he)

/-! ## Claim C3 — amended -/

theorem contentSimilarity_bounds (content1 content2 : String) :
    0 ≤ Rerank.contentSimilarity content1 content2 ∧
      Rerank.contentSimilarity content1 content2 ≤ 1 := by
  rw [Rerank.contentSimilarity]
  by_cases h : 0 < ((Rerank.wordSet content1) ∪ (Rerank.wordSet content2)).card
  · simp only [if_pos h]
    have hsub : (Rerank.wordSet content1 ∩ Rerank.wordSet content2).card ≤
        (Rerank.wordSet content1 ∪ Rerank.wordSet content2).card :=
      Finset.card_le_card
        (le_trans Finset.inter_subset_left Finset.subset_union_left)
    have hpos : (0 : ℚ) < ((Rerank.wordSet content1 ∪ Rerank.wordSet content2).card : ℚ) := by
      exact_mod_cast h
    constructor
    · exact div_nonneg (by positivity) (le_of_lt hpos)
    · rw [div_le_one hpos]
      exact_mod_cast hsub
  · simp only [if_neg h]
    norm_num

theorem foldl_max_le_of (l : List ℚ) (a b : ℚ) (ha : a ≤ b)
    (hl : ∀ x ∈ l, x ≤ b) : l.foldl max a ≤ b := by
  induction l generalizing a with
  | nil => exact ha
  | cons x xs ih =>
      exact ih (max a x) (max_le ha (hl x (by simp)))
        (fun y hy => hl y (List.mem_cons_of_mem _ hy))

theorem diversityBonus_ge (threshold : ℚ) (maxSameSource : ℕ)
    (cand : RagCore.RetrievalResult) (selected : List RagCore.RetrievalResult)
    (sourceCounts : List (String × ℕ)) (hthr : 0 ≤ threshold) :
    -(1/2) ≤ Rerank.diversityBonus threshold maxSameSource cand selected sourceCounts := by
  rw [Rerank.diversityBonus]
  have hsrc : -(3/10 : ℚ) ≤
      (if (alistLookup sourceCounts cand.chunk.sourceDocId).getD 0 = 0 then (2/10 : ℚ)
       else if maxSameSource ≤ (alistLookup sourceCounts cand.chunk.sourceDocId).getD 0
       then -(3/10) else 0) := by
    split <;> norm_num
    split <;> norm_num
  have hmax : selected.foldl
      (fun m s => max m (Rerank.contentSimilarity cand.chunk.content s.chunk.content)) 0 ≤ 1 := by
    have : ∀ s ∈ selected,
        Rerank.contentSimilarity cand.chunk.content s.chunk.content ≤ 1 :=
      fun s _ => (contentSimilarity_bounds _ _).2
    have hgen : ∀ (l : List RagCore.RetrievalResult) (a : ℚ), a ≤ 1 →
        (∀ s ∈ l, Rerank.contentSimilarity cand.chunk.content s.chunk.content ≤ 1) →
        l.foldl (fun m s => max m (Rerank.contentSimilarity cand.chunk.content s.chunk.content)) a ≤ 1 := by
      intro l
      induction l with
      | nil => intro a ha _; exact ha
      | cons x xs ih =>
          intro a ha hl
          exact ih (max a (Rerank.contentSimilarity cand.chunk.content x.chunk.content))
            (max_le ha (hl x (by simp)))
            (fun y hy => hl y (List.mem_cons_of_mem _ hy))
    exact hgen selected 0 (by norm_num) this
  have hsim : -(2/10 : ℚ) ≤
      (if threshold < selected.foldl
          (fun m s => max m (Rerank.contentSimilarity cand.chunk.content s.chunk.content)) 0
       then -(2/10) * (selected.foldl
          (fun m s => max m (Rerank.contentSimilarity cand.chunk.content s.chunk.content)) 0 - threshold)
       else 0) := by
    split
    · nlinarith [hmax, hthr]
    · norm_num
  have htype : (0 : ℚ) ≤
      (if selected.all (fun s => s.chunk.chunkType ≠ cand.chunk.chunkType) = true
       then (1/10 : ℚ) else 0) := by
    split <;> norm_num
  nlinarith [hsrc, hsim, htype]

theorem pickBest_some_bounds (threshold : ℚ) (maxSameSource : ℕ)
    (remaining selected : List RagCore.RetrievalResult)
    (sourceCounts : List (String × ℕ)) (best : RagCore.RetrievalResult) (idx : ℕ)
    (h : Rerank.pickBest threshold maxSameSource remaining selected sourceCounts =
      some (best, idx)) :
    remaining[idx]? = some best := by
  rw [Rerank.pickBest] at h
  have hfold : ∀ (l : List (ℕ × RagCore.RetrievalResult))
      (acc : Option (RagCore.RetrievalResult × ℕ × ℚ)),
      (∀ t, acc = some t → remaining[t.2.1]? = some t.1) →
      (∀ p ∈ l, remaining[p.1]? = some p.2) →
      ∀ t, l.foldl
        (fun acc p =>
          let combined := p.2.score +
            Rerank.diversityBonus threshold maxSameSource p.2 selected sourceCounts
          match acc with
          | none => if -1 < combined then some (p.2, p.1, combined) else none
          | some t => if t.2.2 < combined then some (p.2, p.1, combined) else acc)
        acc = some t → remaining[t.2.1]? = some t.1 := by
    intro l
    induction l with
    | nil => intro acc hacc _ t ht; exact hacc t ht
    | cons p rest ih =>
        intro acc hacc hl t ht
        rw [List.foldl_cons] at ht
        refine ih _ ?_ (fun p2 hp2 => hl p2 (List.mem_cons_of_mem _ hp2)) t ht
        intro t2 ht2
        cases acc with
        | none =>
            by_cases hc : -1 < p.2.score +
                Rerank.diversityBonus threshold maxSameSource p.2 selected sourceCounts
            · simp only [if_pos hc] at ht2
              cases ht2
              exact hl p (by simp)
            · simp only [if_neg hc] at ht2
              cases ht2
        | some t3 =>
            by_cases hc : t3.2.2 < p.2.score +
                Rerank.diversityBonus threshold maxSameSource p.2 selected sourceCounts
            · simp only [if_pos hc] at ht2
              cases ht2
              exact hl p (by simp)
            · simp only [if_neg hc] at ht2
              exact hacc t2 ht2
  have henum : ∀ p ∈ remaining.enum, remaining[p.1]? = some p.2 := by
    intro p hp
    cases p with
    | mk i x =>
        rcases List.mem_enum hp with ⟨hlt, hx⟩
        rw [List.getElem?_eq_getElem hlt, hx]
  rcases Option.map_eq_some'.1 h with ⟨t, ht, htb⟩
  have hres := hfold remaining.enum none (by intro t ht; cases ht) henum t ht
  obtain ⟨x, i, s⟩ := t
  simp only at htb hres
  cases htb
  exact hres

theorem foldl_pick_some_stays (threshold : ℚ) (maxSameSource : ℕ)
    (selected : List RagCore.RetrievalResult) (sourceCounts : List (String × ℕ))
    (l : List (ℕ × RagCore.RetrievalResult)) (t : RagCore.RetrievalResult × ℕ × ℚ) :
    l.foldl
      (fun acc p =>
        let combined := p.2.score +
          Rerank.diversityBonus threshold maxSameSource p.2 selected sourceCounts
        match acc with
        | none => if -1 < combined then some (p.2, p.1, combined) else none
        | some t => if t.2.2 < combined then some (p.2, p.1, combined) else acc)
      (some t) ≠ none := by
  induction l generalizing t with
  | nil => simp
  | cons p rest ih =>
      rw [List.foldl_cons]
      by_cases hc : t.2.2 < p.2.score +
          Rerank.diversityBonus threshold maxSameSource p.2 selected sourceCounts
      · simp only [if_pos hc]
        exact ih _
      · simp only [if_neg hc]
        exact ih t

theorem pickBest_isSome (threshold : ℚ) (maxSameSource : ℕ)
    (remaining selected : List RagCore.RetrievalResult)
    (sourceCounts : List (String × ℕ)) (hthr : 0 ≤ threshold)
    (hne : remaining ≠ []) (hsc : ∀ r ∈ remaining, 0 ≤ r.score) :
    Rerank.pickBest threshold maxSameSource remaining selected sourceCounts ≠ none := by
  rw [Rerank.pickBest]
  cases remaining with
  | nil => exact absurd rfl hne
  | cons x xs =>
      rw [List.enum_cons, List.foldl_cons]
      have hx : 0 ≤ x.score := hsc x (by simp)
      have hbonus := diversityBonus_ge threshold maxSameSource x selected sourceCounts hthr
      have hc : -1 < x.score +
          Rerank.diversityBonus threshold maxSameSource x selected sourceCounts := by
        nlinarith
      simp only [if_pos hc]
      intro hcontra
      exact foldl_pick_some_stays threshold maxSameSource selected sourceCounts _ _
        (Option.map_eq_none'.1 hcontra)

theorem diversityGo_perm (threshold : ℚ) (maxSameSource : ℕ) (hthr : 0 ≤ threshold) :
    ∀ (fuel : ℕ) (selected : List RagCore.RetrievalResult)
      (sourceCounts : List (String × ℕ)) (remaining : List RagCore.RetrievalResult),
      remaining.length ≤ fuel → (∀ r ∈ remaining, 0 ≤ r.score) →
      (Rerank.diversityGo threshold maxSameSource fuel selected sourceCounts
          remaining).Perm (selected ++ remaining) := by
  intro fuel
  induction fuel with
  | zero =>
      intro selected sourceCounts remaining hlen _
      have : remaining = [] := List.length_eq_zero.1 (Nat.le_zero.1 hlen)
      subst this
      simp [Rerank.diversityGo]
  | succ n ih =>
      intro selected sourceCounts remaining hlen hsc
      rw [Rerank.diversityGo]
      by_cases hrem : remaining.isEmpty
      · rw [if_pos hrem]
        have : remaining = [] := by
          cases remaining
          · rfl
          · simp at hrem
        subst this
        simp
      · rw [if_neg hrem]
        have hne : remaining ≠ [] := by
          intro hh
          subst hh
          simp at hrem
        cases hpick : Rerank.pickBest threshold maxSameSource remaining selected
            sourceCounts with
        | none =>
            exact absurd hpick
              (pickBest_isSome threshold maxSameSource remaining selected
                sourceCounts hthr hne hsc)
        | some res =>
            obtain ⟨best, idx⟩ := res
            have hget : remaining[idx]? = some best :=
              pickBest_some_bounds threshold maxSameSource remaining selected
                sourceCounts best idx hpick
            have hlt : idx < remaining.length := by
              by_contra hge
              rw [List.getElem?_eq_none (Nat.le_of_not_lt hge)] at hget
              cases hget
            have hbest : remaining[idx] = best := by
              rw [List.getElem?_eq_getElem hlt] at hget
              exact Option.some.inj hget
            have hlen2 : (remaining.eraseIdx idx).length ≤ n := by
              rw [List.length_eraseIdx, if_pos hlt]
              omega
            have hsc2 : ∀ r ∈ remaining.eraseIdx idx, 0 ≤ r.score :=
              fun r hr => hsc r (List.mem_of_mem_eraseIdx hr)
            have hperm2 := ih (selected ++ [best])
              (alistInsert sourceCounts best.chunk.sourceDocId
                ((alistLookup sourceCounts best.chunk.sourceDocId).getD 0 + 1))
              (remaining.eraseIdx idx) hlen2 hsc2
            refine hperm2.trans ?_
            rw [List.append_assoc]
            refine List.Perm.append_left selected ?_
            have hdecomp : remaining =
                remaining.take idx ++ best :: remaining.drop (idx + 1) := by
              conv_lhs => rw [← List.take_append_drop idx remaining]
              rw [List.drop_eq_getElem_cons hlt, hbest]
            rw [List.eraseIdx_eq_take_drop_succ]
            have hmid : (best :: (remaining.take idx ++ remaining.drop (idx + 1))).Perm
                (remaining.take idx ++ best :: remaining.drop (idx + 1)) :=
              List.perm_middle.symm
            have hfin : (remaining.take idx ++
                best :: remaining.drop (idx + 1)).Perm remaining := by
              rw [← hdecomp]
            exact hmid.trans hfin

theorem map_proj_enum_stamp (l : List RagCore.RetrievalResult)
    (f : ℕ × RagCore.RetrievalResult → RagCore.RetrievalResult)
    (hf : ∀ p, (f p).chunk = p.2.chunk ∧ (f p).score = p.2.score) :
    (l.enum.map f).map (fun r => (r.chunk, r.score)) =
      l.map (fun r => (r.chunk, r.score)) := by
  rw [List.map_map]
  have h1 : ∀ p ∈ l.enum,
      ((fun r : RagCore.RetrievalResult => (r.chunk, r.score)) ∘ f) p =
        ((fun r : RagCore.RetrievalResult => (r.chunk, r.score)) ∘ Prod.snd) p := by
    intro p _
    simp only [Function.comp_apply, (hf p).1, (hf p).2]
  rw [List.map_congr_left h1, ← List.map_map, List.enum_map_snd]

/-- C3 amended: the diversity reranker only reorders — whenever the threshold
is nonnegative and every candidate score is nonnegative (so every greedy
combined score beats the `-1` sentinel), its output is a permutation of its
input (projected to chunk and score; rank and the audit string are
restamped).  In particular `max_same_source` caps nothing: all results of an
over-represented source stay in the output. -/
theorem diversity_rerank_permutation (threshold : ℚ) (maxSameSource : ℕ)
    (results : List RagCore.RetrievalResult) (hthr : 0 ≤ threshold)
    (hsc : ∀ r ∈ results, 0 ≤ r.score) :
    ((Rerank.diversityRerank threshold maxSameSource results).map
        (fun r => (r.chunk, r.score))).Perm
      (results.map (fun r => (r.chunk, r.score))) := by
  cases results with
  | nil => simp [Rerank.diversityRerank]
  | cons best remaining =>
      rw [Rerank.diversityRerank]
      have hstamp := map_proj_enum_stamp
        (Rerank.diversityGo threshold maxSameSource remaining.length [best]
          [(best.chunk.sourceDocId, 1)] remaining)
        (fun p => { p.2 with rank := p.1 + 1, retrievalMethod := p.2.retrievalMethod ++ "+diversity_rerank" })
        (fun p => ⟨rfl, rfl⟩)
      rw [hstamp]
      have hperm := diversityGo_perm threshold maxSameSource hthr remaining.length
        [best] [(best.chunk.sourceDocId, 1)] remaining (le_refl _)
        (fun r hr => hsc r (List.mem_cons_of_mem _ hr))
      have hmap := hperm.map (fun r : RagCore.RetrievalResult => (r.chunk, r.score))
      simpa using hmap

/-- Witness for C3's amended statement on the 5-of-6 shared-source pool. -/
theorem diversity_rerank_permutation_witness :
    ((Rerank.diversityRerank (4/5) 2 Examples.divResults).map
        (fun r => (r.chunk, r.score))).Perm
      (Examples.divResults.map (fun r => (r.chunk, r.score))) :=
  diversity_rerank_permutation (4/5) 2 Examples.divResults (by norm_num)
    (by with_unfolding_all decide)

/-! ## Claim C7 -/

set_option maxRecDepth 8000 in
/-- C7 counterexample: in the 12-document corpus `bmCorpus12` with query
`"aa bb"`, the documents `"aa bb"` and `"aa aa bb"` differ only by one extra
occurrence of the query term `aa` — yet the longer document scores strictly
*lower*: `aa` sits in exactly half the corpus so `idf(aa) = ln 1 = 0`, while
the extra token lengthens the document and shrinks the `bb` term's
length-normalized contribution (`550/649 < 550/541` of `ln 4.2`). -/
theorem bm25_extra_occurrence_scores_lower :
    BM25.docScore (6/5) (3/4) Examples.bmCorpus12 (BM25.tokenize "aa bb")
        (BM25.tokenize "aa aa bb") <
      BM25.docScore (6/5) (3/4) Examples.bmCorpus12 (BM25.tokenize "aa bb")
        (BM25.tokenize "aa bb") := by
  have ht1 : BM25.tokenize "aa bb" = ["aa", "bb"] := by with_unfolding_all decide
  have ht2 : BM25.tokenize "aa aa bb" = ["aa", "aa", "bb"] := by
    with_unfolding_all decide
  have hdedup : BM25.pyDedup ["aa", "bb"] = ["aa", "bb"] := by
    with_unfolding_all decide
  have haaArg : BM25.idfArg Examples.bmCorpus12 "aa" = 1 := by
    with_unfolding_all decide
  have hbbArg : BM25.idfArg Examples.bmCorpus12 "bb" = 21/5 := by
    with_unfolding_all decide
  have htfbb1 : BM25.tfWeight (6/5) (3/4) Examples.bmCorpus12 ["aa", "bb"] "bb" =
      550/541 := by with_unfolding_all decide
  have htfbb2 : BM25.tfWeight (6/5) (3/4) Examples.bmCorpus12 ["aa", "aa", "bb"]
      "bb" = 550/649 := by with_unfolding_all decide
  rw [ht1, ht2, BM25.docScore, BM25.docScore, hdedup]
  simp only [List.foldl_cons, List.foldl_nil]
  rw [if_pos (by decide : 0 < List.count "aa" ["aa", "aa", "bb"]),
    if_pos (by decide : 0 < List.count "bb" ["aa", "aa", "bb"]),
    if_pos (by decide : 0 < List.count "aa" ["aa", "bb"]),
    if_pos (by decide : 0 < List.count "bb" ["aa", "bb"])]
  simp only [BM25.idf, haaArg, hbbArg, htfbb1, htfbb2]
  rw [Rat.cast_one, Real.log_one]
  simp only [zero_mul, zero_add]
  have hlog : 0 < Real.log ((21/5 : ℚ) : ℝ) := by
    refine Real.log_pos ?_
    push_cast
    norm_num
  have hlt : ((550/649 : ℚ) : ℝ) < ((550/541 : ℚ) : ℝ) := by
    push_cast
    norm_num
  exact mul_lt_mul_of_pos_left hlt hlog

theorem tfWeight_extra_occurrence_mono (docs : List (List String)) (t : String)
    (d d2 : List String) (hcount : d2.count t = d.count t + 1)
    (hlen : d2.length = d.length + 1) (havg : 0 < BM25.avgdl docs)
    (htf : 1 ≤ d.count t) :
    BM25.tfWeight (6/5) (3/4) docs d t ≤ BM25.tfWeight (6/5) (3/4) docs d2 t := by
  have hc2 : ((d2.count t : ℚ)) = (d.count t : ℚ) + 1 := by exact_mod_cast hcount
  have hl2 : ((d2.length : ℚ)) = (d.length : ℚ) + 1 := by exact_mod_cast hlen
  have htfq : (1 : ℚ) ≤ (d.count t : ℚ) := by exact_mod_cast htf
  have hdl : ((d.count t : ℚ)) ≤ (d.length : ℚ) := by
    exact_mod_cast List.count_le_length t d
  have hdlnn : (0 : ℚ) ≤ (d.length : ℚ) := by positivity
  simp only [BM25.tfWeight]
  rw [hc2, hl2]
  have hdiv : (0 : ℚ) ≤ (d.length : ℚ) / BM25.avgdl docs :=
    div_nonneg hdlnn (le_of_lt havg)
  have hD1 : (0 : ℚ) < (d.count t : ℚ) +
      6/5 * (1 - 3/4 + 3/4 * (d.length : ℚ) / BM25.avgdl docs) := by
    have h34 : (0 : ℚ) ≤ 3/4 * (d.length : ℚ) / BM25.avgdl docs := by positivity
    nlinarith
  have hD2 : (0 : ℚ) < ((d.count t : ℚ) + 1) +
      6/5 * (1 - 3/4 + 3/4 * ((d.length : ℚ) + 1) / BM25.avgdl docs) := by
    have h34 : (0 : ℚ) ≤ 3/4 * ((d.length : ℚ) + 1) / BM25.avgdl docs := by
      positivity
    nlinarith
  rw [div_le_div_iff₀ hD1 hD2]
  have hw : (0 : ℚ) < (BM25.avgdl docs)⁻¹ := inv_pos.2 havg
  have key : ∀ x : ℚ, x / BM25.avgdl docs = x * (BM25.avgdl docs)⁻¹ :=
    fun x => div_eq_mul_inv x _
  rw [key, key]
  nlinarith [mul_nonneg (sub_nonneg.2 hdl) (le_of_lt hw), hw, htfq]

/-- C7 amended: for a single-term query whose term has nonnegative idf, the
document with one extra occurrence of the term scores at least the other,
all else equal (the multi-term claim fails, per the counterexample, because
the extra token also lengthens the document and shrinks every other term's
contribution). -/
theorem bm25_single_term_monotone (docs : List (List String)) (t : String)
    (d d2 : List String) (hcount : d2.count t = d.count t + 1)
    (hlen : d2.length = d.length + 1) (hidf : 0 ≤ BM25.idf docs t)
    (havg : 0 < BM25.avgdl docs) :
    BM25.docScore (6/5) (3/4) docs [t] d ≤ BM25.docScore (6/5) (3/4) docs [t] d2 := by
  have hdedup : BM25.pyDedup [t] = [t] := rfl
  rw [BM25.docScore, BM25.docScore, hdedup]
  simp only [List.foldl_cons, List.foldl_nil]
  have hc2pos : 0 < d2.count t := by omega
  rw [if_pos hc2pos]
  by_cases hc1 : 0 < d.count t
  · rw [if_pos hc1]
    simp only [zero_add]
    refine mul_le_mul_of_nonneg_left ?_ hidf
    have := tfWeight_extra_occurrence_mono docs t d d2 hcount hlen havg hc1
    exact_mod_cast this
  · rw [if_neg hc1]
    simp only [zero_add]
    refine mul_nonneg hidf ?_
    have htfnn : (0 : ℚ) ≤ BM25.tfWeight (6/5) (3/4) docs d2 t := by
      rw [BM25.tfWeight]
      have hc20 : ((d2.count t : ℚ)) = 1 := by
        have : d.count t = 0 := by omega
        rw [hcount, this]
        norm_num
      rw [hc20]
      have hdl2nn : (0 : ℚ) ≤ (d2.length : ℚ) := by positivity
      have hdiv : (0 : ℚ) ≤ (d2.length : ℚ) / BM25.avgdl docs :=
        div_nonneg hdl2nn (le_of_lt havg)
      have hD : (0 : ℚ) < 1 + 6/5 * (1 - 3/4 + 3/4 * (d2.length : ℚ) / BM25.avgdl docs) := by
        have h34 : (0 : ℚ) ≤ 3/4 * (d2.length : ℚ) / BM25.avgdl docs := by positivity
        nlinarith
      positivity
    exact_mod_cast htfnn

set_option maxRecDepth 8000 in
/-- Witness for C7's amended statement: in `bmCorpus5` the term `tt` has
idf `ln(7/5) ≥ 0` and the document with the extra `tt` scores at least the
shorter one. -/
theorem bm25_single_term_monotone_witness :
    BM25.docScore (6/5) (3/4) Examples.bmCorpus5 ["tt"] ["tt", "xx"] ≤
      BM25.docScore (6/5) (3/4) Examples.bmCorpus5 ["tt"] ["tt", "tt", "xx"] :=
  bm25_single_term_monotone Examples.bmCorpus5 "tt" ["tt", "xx"]
    ["tt", "tt", "xx"] (by decide) (by decide)
    (by
      rw [BM25.idf,
        (show BM25.idfArg Examples.bmCorpus5 "tt" = 7/5 from by
          with_unfolding_all decide)]
      refine Real.log_nonneg ?_
      push_cast
      norm_num)
    (by with_unfolding_all decide)

end Polyagent
